import Mathlib

/-!
Verification development for the Simple-Constraint-System repository
(src/src/constraint.rs and its callers).

Modelling conventions:
* Rust `i64` is modelled as `Int`.  The repository only relies on order,
  equality, and `+ 1` on endpoint values; overflow at the `i64` range plays
  no role in any claim considered here.
* Rust `f64` is modelled as `Rat`.  The repository restricts floats to
  ordered arithmetic, `min`/`max`, `floor`/`ceil`, `fract() == 0.0`
  (integrality), and the `|a - b| < f64::EPSILON` adjacency tolerance; all
  of these are mirrored exactly on `Rat` (`fract() == 0.0` becomes
  `den = 1`, the cast `as i64` of an integral float becomes `num`).
  NaN is outside the supported domain per the specification.
* The flat constraint algebra of `constraint.rs` is a deeply mutually
  recursive procedure with no evident termination measure, so every
  operation is embedded with an explicit fuel parameter (`Nat`), returning
  `none` when the fuel runs out.  Each function consumes one unit of fuel
  on entry and hands the predecessor to every call it makes, exactly
  preserving the call structure of the source.
-/

/-- Floating point interval endpoint (`enum FloatBound` in constraint.rs). -/
inductive FloatBound where
  | Inclusive (v : Rat)
  | Exclusive (v : Rat)
  | NegativeInfinity
  | PositiveInfinity
deriving DecidableEq

/-- Floating point interval (`struct FloatField(FloatBound, FloatBound)`). -/
structure FloatField where
  s : FloatBound
  e : FloatBound
deriving DecidableEq

/-- Integer interval endpoint (`enum Bound` in constraint.rs). -/
inductive Bound where
  | Inclusive (v : Int)
  | Exclusive (v : Int)
  | NegativeInfinity
  | PositiveInfinity
deriving DecidableEq

/-- Integer interval (`struct Field(Bound, Bound)` (named IntField here since Lean reserves Field)). -/
structure IntField where
  s : Bound
  e : Bound
deriving DecidableEq

/-- Rust `f64::EPSILON`, the tolerance used by `FloatField::union`. -/
def feps : Rat := 1 / 2 ^ 52

/-- `FloatField::intersection`. -/
def FloatField.intersection (f g : FloatField) : FloatField :=
  let start_bound : FloatBound :=
    match f.s, g.s with
    | .NegativeInfinity, s => s
    | s, .NegativeInfinity => s
    | .PositiveInfinity, _ => .PositiveInfinity
    | _, .PositiveInfinity => .PositiveInfinity
    | .Inclusive a, .Inclusive b => .Inclusive (max a b)
    | .Exclusive a, .Exclusive b => .Exclusive (max a b)
    | .Inclusive a, .Exclusive b => if a > b then .Inclusive a else .Exclusive b
    | .Exclusive b, .Inclusive a => if a > b then .Inclusive a else .Exclusive b
  let end_bound : FloatBound :=
    match f.e, g.e with
    | .PositiveInfinity, s => s
    | s, .PositiveInfinity => s
    | .NegativeInfinity, _ => .NegativeInfinity
    | _, .NegativeInfinity => .NegativeInfinity
    | .Inclusive a, .Inclusive b => .Inclusive (min a b)
    | .Exclusive a, .Exclusive b => .Exclusive (min a b)
    | .Inclusive a, .Exclusive b => if a < b then .Inclusive a else .Exclusive b
    | .Exclusive b, .Inclusive a => if a < b then .Inclusive a else .Exclusive b
  ⟨start_bound, end_bound⟩

/-- `FloatField::contains`. -/
def FloatField.contains (f : FloatField) (value : Rat) : Bool :=
  let start_check : Bool :=
    match f.s with
    | .Inclusive a => decide (a ≤ value)
    | .Exclusive a => decide (a < value)
    | .NegativeInfinity => true
    | .PositiveInfinity => false
  let end_check : Bool :=
    match f.e with
    | .Inclusive b => decide (value ≤ b)
    | .Exclusive b => decide (value < b)
    | .PositiveInfinity => true
    | .NegativeInfinity => false
  start_check && end_check

/-- `FloatField::contains_field`. -/
def FloatField.contains_field (f g : FloatField) : Bool :=
  let start_check : Bool :=
    match f.s, g.s with
    | .NegativeInfinity, _ => true
    | _, .NegativeInfinity => false
    | .PositiveInfinity, _ => false
    | _, .PositiveInfinity => false
    | .Inclusive a, .Inclusive b => decide (a ≤ b)
    | .Inclusive a, .Exclusive b => decide (a ≤ b)
    | .Exclusive a, .Inclusive b => decide (a < b)
    | .Exclusive a, .Exclusive b => decide (a ≤ b)
  let end_check : Bool :=
    match f.e, g.e with
    | .PositiveInfinity, _ => true
    | _, .PositiveInfinity => false
    | .NegativeInfinity, _ => false
    | _, .NegativeInfinity => false
    | .Inclusive a, .Inclusive b => decide (b ≤ a)
    | .Inclusive a, .Exclusive b => decide (b < a)
    | .Exclusive a, .Inclusive b => decide (b ≤ a)
    | .Exclusive a, .Exclusive b => decide (b ≤ a)
  start_check && end_check

/-- `FloatField::is_empty`. -/
def FloatField.is_empty (f : FloatField) : Bool :=
  match f.s, f.e with
  | .PositiveInfinity, _ => true
  | _, .NegativeInfinity => true
  | .Inclusive a, .Exclusive b => decide (b ≤ a)
  | .Exclusive a, .Inclusive b => decide (b ≤ a)
  | .Inclusive a, .Inclusive b => decide (b < a)
  | .Exclusive a, .Exclusive b => decide (b ≤ a)
  | _, _ => false

/-- Second adjacency check of `FloatField::union` (the `(other.end(),
self.start())` match) followed by the final `None`. -/
def FloatField.unionAdj2 (f g : FloatField) : Option FloatField :=
  match g.e, f.s with
  | .Inclusive a, .Inclusive b =>
    if |a - b| < feps then some ⟨g.s, f.e⟩ else none
  | .Exclusive a, .Inclusive b =>
    if |a - b| < feps then some ⟨g.s, f.e⟩ else none
  | .Inclusive a, .Exclusive b =>
    if |a - b| < feps then some ⟨g.s, f.e⟩ else none
  | _, _ => none

/-- `FloatField::union`. -/
def FloatField.union (f g : FloatField) : Option FloatField :=
  if ¬(f.intersection g).is_empty then
    let start_bound : FloatBound :=
      match f.s, g.s with
      | .NegativeInfinity, _ => .NegativeInfinity
      | _, .NegativeInfinity => .NegativeInfinity
      | .PositiveInfinity, s => s
      | s, .PositiveInfinity => s
      | .Inclusive a, .Inclusive b => .Inclusive (min a b)
      | .Exclusive a, .Exclusive b => .Exclusive (min a b)
      | .Inclusive a, .Exclusive b => if a < b then .Inclusive a else .Exclusive b
      | .Exclusive b, .Inclusive a => if a < b then .Inclusive a else .Exclusive b
    let end_bound : FloatBound :=
      match f.e, g.e with
      | .PositiveInfinity, _ => .PositiveInfinity
      | _, .PositiveInfinity => .PositiveInfinity
      | .NegativeInfinity, s => s
      | s, .NegativeInfinity => s
      | .Inclusive a, .Inclusive b => .Inclusive (max a b)
      | .Exclusive a, .Exclusive b => .Exclusive (max a b)
      | .Inclusive a, .Exclusive b => if a > b then .Inclusive a else .Exclusive b
      | .Exclusive b, .Inclusive a => if a > b then .Inclusive a else .Exclusive b
    some ⟨start_bound, end_bound⟩
  else
    match f.e, g.s with
    | .Inclusive a, .Inclusive b =>
      if |a - b| < feps then some ⟨f.s, g.e⟩ else FloatField.unionAdj2 f g
    | .Exclusive a, .Inclusive b =>
      if |a - b| < feps then some ⟨f.s, g.e⟩ else FloatField.unionAdj2 f g
    | .Inclusive a, .Exclusive b =>
      if |a - b| < feps then some ⟨f.s, g.e⟩ else FloatField.unionAdj2 f g
    | _, _ => FloatField.unionAdj2 f g

/-- `IntField::intersection`. -/
def IntField.intersection (f g : IntField) : IntField :=
  let start_bound : Bound :=
    match f.s, g.s with
    | .NegativeInfinity, s => s
    | s, .NegativeInfinity => s
    | .PositiveInfinity, _ => .PositiveInfinity
    | _, .PositiveInfinity => .PositiveInfinity
    | .Inclusive a, .Inclusive b => .Inclusive (max a b)
    | .Exclusive a, .Exclusive b => .Exclusive (max a b)
    | .Inclusive a, .Exclusive b => if a > b then .Inclusive a else .Exclusive b
    | .Exclusive b, .Inclusive a => if a > b then .Inclusive a else .Exclusive b
  let end_bound : Bound :=
    match f.e, g.e with
    | .PositiveInfinity, s => s
    | s, .PositiveInfinity => s
    | .NegativeInfinity, _ => .NegativeInfinity
    | _, .NegativeInfinity => .NegativeInfinity
    | .Inclusive a, .Inclusive b => .Inclusive (min a b)
    | .Exclusive a, .Exclusive b => .Exclusive (min a b)
    | .Inclusive a, .Exclusive b => if a < b then .Inclusive a else .Exclusive b
    | .Exclusive b, .Inclusive a => if a < b then .Inclusive a else .Exclusive b
  ⟨start_bound, end_bound⟩

/-- `IntField::contains`. -/
def IntField.contains (f : IntField) (value : Int) : Bool :=
  let start_check : Bool :=
    match f.s with
    | .Inclusive a => decide (a ≤ value)
    | .Exclusive a => decide (a < value)
    | .NegativeInfinity => true
    | .PositiveInfinity => false
  let end_check : Bool :=
    match f.e with
    | .Inclusive b => decide (value ≤ b)
    | .Exclusive b => decide (value < b)
    | .PositiveInfinity => true
    | .NegativeInfinity => false
  start_check && end_check

/-- `IntField::contains_field`. -/
def IntField.contains_field (f g : IntField) : Bool :=
  let start_check : Bool :=
    match f.s, g.s with
    | .NegativeInfinity, _ => true
    | _, .NegativeInfinity => false
    | .PositiveInfinity, _ => false
    | _, .PositiveInfinity => false
    | .Inclusive a, .Inclusive b => decide (a ≤ b)
    | .Inclusive a, .Exclusive b => decide (a ≤ b)
    | .Exclusive a, .Inclusive b => decide (a < b)
    | .Exclusive a, .Exclusive b => decide (a ≤ b)
  let end_check : Bool :=
    match f.e, g.e with
    | .PositiveInfinity, _ => true
    | _, .PositiveInfinity => false
    | .NegativeInfinity, _ => false
    | _, .NegativeInfinity => false
    | .Inclusive a, .Inclusive b => decide (b ≤ a)
    | .Inclusive a, .Exclusive b => decide (b < a)
    | .Exclusive a, .Inclusive b => decide (b ≤ a)
    | .Exclusive a, .Exclusive b => decide (b ≤ a)
  start_check && end_check

/-- `IntField::is_empty`. -/
def IntField.is_empty (f : IntField) : Bool :=
  match f.s, f.e with
  | .PositiveInfinity, _ => true
  | _, .NegativeInfinity => true
  | .Inclusive a, .Exclusive b => decide (b ≤ a)
  | .Exclusive a, .Inclusive b => decide (b ≤ a)
  | .Inclusive a, .Inclusive b => decide (b < a)
  | .Exclusive a, .Exclusive b => decide (b ≤ a)
  | _, _ => false

/-- Second adjacency check of `IntField::union` followed by the final `None`. -/
def IntField.unionAdj2 (f g : IntField) : Option IntField :=
  match g.e, f.s with
  | .Inclusive a, .Inclusive b => if a + 1 = b then some ⟨g.s, f.e⟩ else none
  | .Exclusive a, .Inclusive b => if a = b then some ⟨g.s, f.e⟩ else none
  | .Inclusive a, .Exclusive b => if a = b then some ⟨g.s, f.e⟩ else none
  | _, _ => none

/-- `IntField::union`. -/
def IntField.union (f g : IntField) : Option IntField :=
  if ¬(f.intersection g).is_empty then
    let start_bound : Bound :=
      match f.s, g.s with
      | .NegativeInfinity, _ => .NegativeInfinity
      | _, .NegativeInfinity => .NegativeInfinity
      | .PositiveInfinity, s => s
      | s, .PositiveInfinity => s
      | .Inclusive a, .Inclusive b => .Inclusive (min a b)
      | .Exclusive a, .Exclusive b => .Exclusive (min a b)
      | .Inclusive a, .Exclusive b => if a < b then .Inclusive a else .Exclusive b
      | .Exclusive b, .Inclusive a => if a < b then .Inclusive a else .Exclusive b
    let end_bound : Bound :=
      match f.e, g.e with
      | .PositiveInfinity, _ => .PositiveInfinity
      | _, .PositiveInfinity => .PositiveInfinity
      | .NegativeInfinity, s => s
      | s, .NegativeInfinity => s
      | .Inclusive a, .Inclusive b => .Inclusive (max a b)
      | .Exclusive a, .Exclusive b => .Exclusive (max a b)
      | .Inclusive a, .Exclusive b => if a > b then .Inclusive a else .Exclusive b
      | .Exclusive b, .Inclusive a => if a > b then .Inclusive a else .Exclusive b
    some ⟨start_bound, end_bound⟩
  else
    match f.e, g.s with
    | .Inclusive a, .Inclusive b =>
      if a + 1 = b then some ⟨f.s, g.e⟩ else IntField.unionAdj2 f g
    | .Exclusive a, .Inclusive b =>
      if a = b then some ⟨f.s, g.e⟩ else IntField.unionAdj2 f g
    | .Inclusive a, .Exclusive b =>
      if a = b then some ⟨f.s, g.e⟩ else IntField.unionAdj2 f g
    | _, _ => IntField.unionAdj2 f g

/-- The constraint expression (`enum Constraint` in constraint.rs).

The `LiteralBool` and `Bool` variants are *modelled from the spec*: they
are absent from the `Constraint` enum in src/src/constraint.rs as
provided, although src/src/main.rs (a caller inside the same crate)
constructs `Constraint::LiteralBool(..)` and `Constraint::Bool`, so the
variant declarations and their operation arms are code of the repository
missing from src/.  They follow spec section 3.2 (variant list) and
section 4.B (Bool handling analogous to String). -/
inductive Constraint where
  | Top
  | Bottom
  | LiteralInt (v : Int)
  | LiteralFloat (v : Rat)
  | LiteralBool (b : Bool)
  | LiteralString (s : String)
  | Tuple (l : List Constraint)
  | Bound (s e : Bound)
  | FloatBound (s e : FloatBound)
  | Int
  | Float
  | Bool
  | String
  | Difference (a b : Constraint)
  | Union (l : List Constraint)

/-- `Constraint::direct_union_internal` (pure: only interval arithmetic). -/
def direct_union_internal (c1 c2 : Constraint) : Option Constraint :=
  match c1, c2 with
  | .FloatBound s1 e1, .FloatBound s2 e2 =>
    (FloatField.union ⟨s1, e1⟩ ⟨s2, e2⟩).map fun u => .FloatBound u.s u.e
  | .Bound s1 e1, .Bound s2 e2 =>
    (IntField.union ⟨s1, e1⟩ ⟨s2, e2⟩).map fun u => .Bound u.s u.e
  | _, _ => none

/-- The `specialized_intersection` closure inside
`Constraint::direct_intersection` (pure: only interval arithmetic and
constructors).  The two `Bool` arms are modelled from the spec (section
4.B.4: same-kind identity and kind-with-literal). -/
def specialized_intersection (c1 c2 : Constraint) : Option Constraint :=
  match c1, c2 with
  | .Top, other => some other
  | .Bottom, _ => some .Bottom
  | .Int, .Int => some .Int
  | .Float, .Float => some .Float
  | .String, .String => some .String
  | .Bool, .Bool => some .Bool
  | .Int, .LiteralInt v => some (.LiteralInt v)
  | .Float, .LiteralFloat v => some (.LiteralFloat v)
  | .Bool, .LiteralBool b => some (.LiteralBool b)
  | .String, .LiteralString s => some (.LiteralString s)
  | .Int, .Bound s e => some (.Bound s e)
  | .Float, .FloatBound s e => some (.FloatBound s e)
  | .Float, .Int => some .Int
  | .Float, .LiteralInt v => some (.LiteralFloat (v : Rat))
  | .Float, .Bound s e =>
    let start_float : FloatBound :=
      match s with
      | .Inclusive i => .Inclusive (i : Rat)
      | .Exclusive i => .Exclusive (i : Rat)
      | .NegativeInfinity => .NegativeInfinity
      | .PositiveInfinity => .PositiveInfinity
    let end_float : FloatBound :=
      match e with
      | .Inclusive i => .Inclusive (i : Rat)
      | .Exclusive i => .Exclusive (i : Rat)
      | .NegativeInfinity => .NegativeInfinity
      | .PositiveInfinity => .PositiveInfinity
    some (.FloatBound start_float end_float)
  | .Int, .LiteralFloat v =>
    some (if v.den = 1 then .LiteralInt v.num else .Bottom)
  | .Int, .FloatBound s e =>
    match s with
    | .PositiveInfinity => some .Bottom
    | _ =>
      match e with
      | .NegativeInfinity => some .Bottom
      | _ =>
        let start_int : Bound :=
          match s with
          | .Inclusive v => .Inclusive v.ceil
          | .Exclusive v => .Inclusive (v.floor + 1)
          | .NegativeInfinity => .NegativeInfinity
          | .PositiveInfinity => .PositiveInfinity
        let end_int : Bound :=
          match e with
          | .Inclusive v => .Inclusive v.floor
          | .Exclusive v => .Inclusive (v.ceil - 1)
          | .PositiveInfinity => .PositiveInfinity
          | .NegativeInfinity => .NegativeInfinity
        let result_field : IntField := ⟨start_int, end_int⟩
        some (if result_field.is_empty then .Bottom
          else .Bound result_field.s result_field.e)
  | .Bound s1 e1, .Bound s2 e2 =>
    let inter := IntField.intersection ⟨s1, e1⟩ ⟨s2, e2⟩
    some (if inter.is_empty then .Bottom else .Bound inter.s inter.e)
  | .FloatBound s1 e1, .FloatBound s2 e2 =>
    let inter := FloatField.intersection ⟨s1, e1⟩ ⟨s2, e2⟩
    some (if inter.is_empty then .Bottom else .FloatBound inter.s inter.e)
  | .Bound s e, .LiteralInt v =>
    some (if IntField.contains ⟨s, e⟩ v then .LiteralInt v else .Bottom)
  | .FloatBound s e, .LiteralFloat v =>
    some (if FloatField.contains ⟨s, e⟩ v then .LiteralFloat v else .Bottom)
  | .FloatBound s e, .LiteralInt v =>
    some (if FloatField.contains ⟨s, e⟩ (v : Rat) then .LiteralInt v
      else .Bottom)
  | _, _ => none

/-- Discriminator for the `if let Top = ..` tests in constraint.rs. -/
def isTop : Constraint → Bool
  | .Top => true
  | _ => false

/-- Discriminator for the `if let Bottom = ..` tests in constraint.rs. -/
def isBottom : Constraint → Bool
  | .Bottom => true
  | _ => false

/-- Sequential `Option`-valued `all` with early exit, mirroring a Rust
loop with an early `return false`. -/
def oall {α : Type} (f : α → Option Bool) : List α → Option Bool
  | [] => some true
  | x :: xs => do
    let b ← f x
    if b then oall f xs else pure false

/-- Sequential `Option`-valued `any` with early exit. -/
def oany {α : Type} (f : α → Option Bool) : List α → Option Bool
  | [] => some false
  | x :: xs => do
    let b ← f x
    if b then pure true else oany f xs

/-- Sequential `Option`-valued `map`. -/
def omap {α β : Type} (f : α → Option β) : List α → Option (List β)
  | [] => some []
  | x :: xs => do
    let y ← f x
    let ys ← omap f xs
    pure (y :: ys)

mutual

/-- `Constraint::make_union_flat` (fuelled). -/
def make_union_flat : Nat → Constraint → Option (List Constraint)
  | 0, _ => none
  | n + 1, .Union elements => do
    let ls ← omap (fun e => make_union_flat n e) elements
    pure ls.flatten
  | _ + 1, c => some [c]

/-- `Constraint::super_of` (fuelled).  Match arms in source order; the
three `Bool` arms are modelled from the spec (section 4.B.1, rules 2-3),
placed with the other primitive-kind arms. -/
def super_of : Nat → Constraint → Constraint → Option Bool
  | 0, _, _ => none
  | n + 1, slf, other =>
    match slf, other with
    | .Top, _ => some true
    | _, .Bottom => some true
    | .Bottom, _ => some false
    | _, .Top => some false
    | .Int, .LiteralInt _ => some true
    | .Float, .LiteralFloat _ => some true
    | .FloatBound s1 e1, .FloatBound s2 e2 =>
      some (FloatField.contains_field ⟨s1, e1⟩ ⟨s2, e2⟩)
    | .FloatBound s e, .LiteralFloat v =>
      some (FloatField.contains ⟨s, e⟩ v)
    | .FloatBound s e, .LiteralInt v =>
      some (FloatField.contains ⟨s, e⟩ (v : Rat))
    | .LiteralInt a, .LiteralInt b => some (decide (a = b))
    | .LiteralFloat a, .LiteralFloat b => some (decide (a = b))
    | .Int, .Int => some true
    | .Float, .Float => some true
    | .Int, .Bound _ _ => some true
    | .Float, .FloatBound _ _ => some true
    | .Float, .LiteralInt _ => some true
    | .String, .LiteralString _ => some true
    | .LiteralString a, .LiteralString b => some (decide (a = b))
    | .String, .String => some true
    | .Bool, .LiteralBool _ => some true
    | .LiteralBool a, .LiteralBool b => some (decide (a = b))
    | .Bool, .Bool => some true
    | .Bound s1 e1, .Bound s2 e2 =>
      some (IntField.contains_field ⟨s1, e1⟩ ⟨s2, e2⟩)
    | .Bound s e, .LiteralInt v => some (IntField.contains ⟨s, e⟩ v)
    | .Tuple t1, .Tuple t2 =>
      if t1.length ≠ t2.length then some false
      else oall (fun p => super_of n p.1 p.2) (t1.zip t2)
    | .Union a, b => do
      let b_elements ← make_union_flat n b
      oall (fun b_elem => oany (fun a_elem => super_of n a_elem b_elem) a) b_elements
    | a, .Union b => oall (fun c => super_of n a c) b
    | a, .Difference b c => do
      let a_union_c ← union n a c
      super_of n a_union_c b
    | .Difference a b, c => do
      let b_intersect_c ← intersection n b c
      match b_intersect_c with
      | .Bottom => super_of n a c
      | _ => some false
    | _, _ => some false

/-- `Constraint::equals` (fuelled; `&&` short-circuits as in Rust). -/
def equals : Nat → Constraint → Constraint → Option Bool
  | 0, _, _ => none
  | n + 1, a, b => do
    let r1 ← super_of n a b
    if r1 then super_of n b a else pure false

/-- `Constraint::refine` (fuelled). -/
def refine : Nat → Constraint → Constraint → Option Constraint
  | 0, _, _ => none
  | n + 1, a, b => do
    let s ← super_of n a b
    pure (if s then b else .Bottom)

/-- `Constraint::direct_union` (fuelled).  The inner `Option` is the Rust
return value (`None` = no direct merge). -/
def direct_union : Nat → Constraint → Constraint → Option (Option Constraint)
  | 0, _, _ => none
  | n + 1, a, b => do
    let s1 ← super_of n a b
    if s1 then pure (some a)
    else do
      let s2 ← super_of n b a
      if s2 then pure (some b)
      else
        match direct_union_internal a b with
        | some r => pure (some r)
        | none =>
          match direct_union_internal b a with
          | some r => pure (some r)
          | none => pure none

/-- The `retain` pass of `reduce_union`: removes from `unique` every
element that `current` subsumes, and reports whether some element of
`unique` subsumes `current` (`is_absorbed`).  Elements are visited in
order, and removal continues even after absorption, as in Rust. -/
def ru_absorb : Nat → Constraint → List Constraint →
    Option (List Constraint × Bool)
  | 0, _, _ => none
  | _ + 1, _, [] => some ([], false)
  | n + 1, current, existing :: rest => do
    let (kept, absorbed) ← ru_absorb n current rest
    let s1 ← super_of n existing current
    if s1 then pure (existing :: kept, true)
    else do
      let s2 ← super_of n current existing
      if s2 then pure (kept, absorbed) else pure (existing :: kept, absorbed)

/-- The reverse-order `direct_union` scan of `reduce_union`.  The input
list is the reversed `unique_elements`; on success it returns the
remaining elements (still in reversed order) and the merged constraint,
mirroring `remove(i)` followed by `push_back`. -/
def ru_scan : Nat → Constraint → List Constraint →
    Option (Option (List Constraint × Constraint))
  | 0, _, _ => none
  | _ + 1, _, [] => some none
  | n + 1, current, u :: rest => do
    let mu ← direct_union n current u
    match mu with
    | some merged => pure (some (rest, merged))
    | none => do
      let r ← ru_scan n current rest
      match r with
      | some (rem, merged) => pure (some (u :: rem, merged))
      | none => pure none

/-- The worklist loop of `Constraint::reduce_union` (the `while let` over
the queue) together with the final assembly. -/
def ru_loop : Nat → List Constraint → List Constraint → Option Constraint
  | 0, _, _ => none
  | n + 1, [], unique =>
    match unique with
    | [] => some .Bottom
    | [x] => some x
    | xs => do
      let rs ← omap (fun e => reduce n e) xs
      pure (.Union rs)
  | n + 1, current :: queue, unique => do
    let bot ← equals n current .Bottom
    if bot then ru_loop n queue unique
    else do
      let p ← ru_absorb n current unique
      if p.2 then ru_loop n queue p.1
      else do
        let sc ← ru_scan n current p.1.reverse
        match sc with
        | some pr => ru_loop n (queue ++ [pr.2]) pr.1.reverse
        | none => ru_loop n queue (p.1 ++ [current])

/-- `Constraint::reduce_union` (fuelled). -/
def reduce_union : Nat → List Constraint → Option Constraint
  | 0, _ => none
  | n + 1, elements =>
    match elements with
    | [] => some .Bottom
    | [x] => some x
    | es => ru_loop n es []

/-- `Constraint::direct_difference` (fuelled; inner `Option` is the Rust
return value, `None` = no simple representation).  The three `if let`
early returns of the source are the three leading boolean tests. -/
def direct_difference : Nat → Constraint → Constraint →
    Option (Option Constraint)
  | 0, _, _ => none
  | n + 1, slf, other =>
    if isTop other then some (some .Bottom)
    else if isBottom slf then some (some .Bottom)
    else if isBottom other then some (some slf)
    else do
      let s1 ← super_of n other slf
      if s1 then pure (some .Bottom)
      else do
        let s2 ← super_of n slf other
        if s2 then pure none else pure (some slf)

/-- One `retain` pass of the `(a, Union)` case of `reduce_difference`:
`a` evolves while the pass runs; returns the new `a`, the kept residual
elements, and whether anything was consumed (`modified`). -/
def rd_pass : Nat → Constraint → List Constraint →
    Option (Constraint × List Constraint × Bool)
  | 0, _, _ => none
  | _ + 1, a, [] => some (a, [], false)
  | n + 1, a, e :: es => do
    let r ← reduce_difference n a e
    match r with
    | some d => do
      let (a2, es2, _) ← rd_pass n d es
      pure (a2, es2, true)
    | none => do
      let (a2, es2, m) ← rd_pass n a es
      pure (a2, e :: es2, m)

/-- The `while modified` loop of the `(a, Union)` case of
`reduce_difference`. -/
def rd_loop : Nat → Constraint → List Constraint →
    Option (Constraint × List Constraint)
  | 0, _, _ => none
  | n + 1, a, l => do
    let (a2, l2, m) ← rd_pass n a l
    if m then rd_loop n a2 l2 else pure (a2, l2)

/-- `Constraint::reduce_difference` (fuelled; inner `Option` is the Rust
return value). -/
def reduce_difference : Nat → Constraint → Constraint →
    Option (Option Constraint)
  | 0, _, _ => none
  | n + 1, slf, other =>
    match slf, other with
    | .Difference a b, c => do
      let u ← union n b c
      reduce_difference n a u
    | .Union elements, c => do
      let v ← omap (fun e => difference n e c) elements
      let r ← reduce_union n v
      pure (some r)
    | a, .Union elements => do
      let (new_a, new_union) ← rd_loop n a elements
      if new_union.isEmpty then pure (some new_a)
      else do
        let ru ← reduce_union n new_union
        pure (some (.Difference new_a ru))
    | a, .Difference b c => do
      let d ← difference n a b
      let i ← intersection n a c
      let r ← reduce_union n [d, i]
      pure (some r)
    | a, b => direct_difference n a b

/-- `Constraint::difference` (fuelled). -/
def difference : Nat → Constraint → Constraint → Option Constraint
  | 0, _, _ => none
  | n + 1, slf, other => do
    let r ← reduce_difference n slf other
    match r with
    | some diff => pure diff
    | none => pure (.Difference slf other)

/-- `Constraint::reduce` (fuelled). -/
def reduce : Nat → Constraint → Option Constraint
  | 0, _ => none
  | n + 1, .Union elements => reduce_union n elements
  | n + 1, .Difference a b => difference n a b
  | _ + 1, c => some c

/-- `Constraint::union` (fuelled). -/
def union : Nat → Constraint → Constraint → Option Constraint
  | 0, _, _ => none
  | n + 1, slf, other => do
    let s1 ← super_of n slf other
    if s1 then pure slf
    else do
      let s2 ← super_of n other slf
      if s2 then pure other
      else do
        let fa ← make_union_flat n slf
        let fb ← make_union_flat n other
        reduce_union n (fa ++ fb)

/-- `Constraint::direct_intersection` (fuelled). -/
def direct_intersection : Nat → Constraint → Constraint → Option Constraint
  | 0, _, _ => none
  | n + 1, slf, other =>
    match specialized_intersection slf other with
    | some result => some result
    | none =>
      match specialized_intersection other slf with
      | some result => some result
      | none => do
        let ra ← refine n slf other
        let rb ← refine n other slf
        union n ra rb

/-- `Constraint::intersection` (fuelled). -/
def intersection : Nat → Constraint → Constraint → Option Constraint
  | 0, _, _ => none
  | n + 1, slf, other => do
    let s1 ← super_of n slf other
    if s1 then pure other
    else do
      let s2 ← super_of n other slf
      if s2 then pure slf
      else do
        let a ← make_union_flat n slf
        let b ← make_union_flat n other
        let rs ← omap (fun p => direct_intersection n p.1 p.2)
          (a.flatMap fun a_elem => b.map fun b_elem => (a_elem, b_elem))
        reduce_union n rs

end

/-- `Constraint::make_union` (delegates to `reduce_union`). -/
def make_union (n : Nat) (constraints : List Constraint) : Option Constraint :=
  reduce_union n constraints

/-- `Constraint::make_pair`. -/
def make_pair (key value : Constraint) : Constraint :=
  .Tuple [key, value]

/-- `Constraint::make_tuple`. -/
def make_tuple (elements : List Constraint) : Constraint :=
  .Tuple elements

/-- A constraint that is atomic in the sense of the spec glossary:
neither `Union` nor `Difference`. -/
def isAtom : Constraint → Bool
  | .Union _ => false
  | .Difference _ _ => false
  | _ => true

/-- Discriminator for `Union` nodes. -/
def isUnionC : Constraint → Bool
  | .Union _ => true
  | _ => false

/-- No element of the list is a `Union` node (spec section 3.2,
invariant 1: reduced unions are never nested). -/
def nonUnionL : List Constraint → Bool
  | [] => true
  | c :: cs => !(isUnionC c) && nonUnionL cs

mutual

/-- Well-formedness used for the reflexivity law: the constraint contains
no `Difference` node, no empty interval, and no `Union` nested directly
inside a `Union` (spec section 3.2, invariants 1, 3 and 4, require all of
these of reduced constraints). -/
def wfRefl : Constraint → Bool
  | .Difference _ _ => false
  | .Union l => nonUnionL l && wfReflL l
  | .Tuple l => wfReflL l
  | .Bound s e => !(IntField.is_empty ⟨s, e⟩)
  | .FloatBound s e => !(FloatField.is_empty ⟨s, e⟩)
  | _ => true

def wfReflL : List Constraint → Bool
  | [] => true
  | c :: cs => wfRefl c && wfReflL cs

end

theorem wfReflL_mem {l : List Constraint} (h : wfReflL l = true) :
    ∀ c ∈ l, wfRefl c = true := by
  induction l with
  | nil => intro c hc; cases hc
  | cons x xs ih =>
    intro c hc
    rw [wfReflL, Bool.and_eq_true] at h
    rcases List.mem_cons.mp hc with rfl | hc
    · exact h.1
    · exact ih h.2 c hc

theorem wfRefl_union {l : List Constraint} (h : wfRefl (.Union l) = true) :
    nonUnionL l = true ∧ wfReflL l = true := by
  have e : wfRefl (.Union l) = (nonUnionL l && wfReflL l) := rfl
  rw [e, Bool.and_eq_true] at h
  exact h

theorem nonUnionL_mem {l : List Constraint} (h : nonUnionL l = true) :
    ∀ c ∈ l, isUnionC c = false := by
  induction l with
  | nil => intro c hc; cases hc
  | cons x xs ih =>
    intro c hc
    rw [nonUnionL, Bool.and_eq_true] at h
    rcases List.mem_cons.mp hc with rfl | hc
    · cases hcu : isUnionC c with
      | false => rfl
      | true => rw [hcu] at h; cases h.1
    · exact ih h.2 c hc

theorem oall_eq_true {α : Type} (f : α → Option Bool) (l : List α) :
    oall f l = some true ↔ ∀ x ∈ l, f x = some true := by
  induction l with
  | nil => simp [oall]
  | cons x xs ih =>
    simp only [oall, Option.bind_eq_bind]
    cases hx : f x with
    | none => simp [hx]
    | some b =>
      cases b with
      | true => simpa [hx] using ih
      | false => simp [hx]

theorem oall_eq_some {α : Type} (f : α → Option Bool) (l : List α)
    (h : ∀ x ∈ l, ∃ b, f x = some b) : ∃ b, oall f l = some b := by
  induction l with
  | nil => exact ⟨true, rfl⟩
  | cons x xs ih =>
    obtain ⟨b, hb⟩ := h x (List.mem_cons_self x xs)
    obtain ⟨bs, hbs⟩ := ih fun y hy => h y (List.mem_cons_of_mem x hy)
    cases b with
    | true => exact ⟨bs, by simp [oall, hb, hbs]⟩
    | false => exact ⟨false, by simp [oall, hb]⟩

theorem oany_eq_false {α : Type} (f : α → Option Bool) (l : List α) :
    oany f l = some false ↔ ∀ x ∈ l, f x = some false := by
  induction l with
  | nil => simp [oany]
  | cons x xs ih =>
    simp only [oany, Option.bind_eq_bind]
    cases hx : f x with
    | none => simp [hx]
    | some b =>
      cases b with
      | true => simp [hx]
      | false => simpa [hx] using ih

theorem oany_eq_true_of {α : Type} (f : α → Option Bool) (l : List α)
    (hdef : ∀ x ∈ l, ∃ b, f x = some b)
    (hex : ∃ x ∈ l, f x = some true) : oany f l = some true := by
  induction l with
  | nil => obtain ⟨x, hx, _⟩ := hex; cases hx
  | cons x xs ih =>
    obtain ⟨b, hb⟩ := hdef x (List.mem_cons_self x xs)
    cases b with
    | true => simp [oany, hb]
    | false =>
      obtain ⟨y, hy, hyt⟩ := hex
      rcases List.mem_cons.mp hy with rfl | hy
      · rw [hb] at hyt; cases hyt
      · have := ih (fun z hz => hdef z (List.mem_cons_of_mem x hz)) ⟨y, hy, hyt⟩
        simp [oany, hb, this]

theorem oany_eq_some {α : Type} (f : α → Option Bool) (l : List α)
    (h : ∀ x ∈ l, ∃ b, f x = some b) : ∃ b, oany f l = some b := by
  induction l with
  | nil => exact ⟨false, rfl⟩
  | cons x xs ih =>
    obtain ⟨b, hb⟩ := h x (List.mem_cons_self x xs)
    obtain ⟨bs, hbs⟩ := ih fun y hy => h y (List.mem_cons_of_mem x hy)
    cases b with
    | true => exact ⟨true, by simp [oany, hb]⟩
    | false => exact ⟨bs, by simp [oany, hb, hbs]⟩

theorem omap_forall₂ {α β : Type} (f : α → Option β) :
    ∀ (l : List α) (rs : List β), omap f l = some rs →
    List.Forall₂ (fun a b => f a = some b) l rs := by
  intro l
  induction l with
  | nil => intro rs h; rw [omap] at h; cases h; exact List.Forall₂.nil
  | cons x xs ih =>
    intro rs h
    simp only [omap, Option.bind_eq_bind] at h
    cases hx : f x with
    | none => rw [hx] at h; cases h
    | some y =>
      rw [hx] at h
      cases hxs : omap f xs with
      | none => rw [hxs] at h; cases h
      | some ys =>
        rw [hxs] at h
        simp only [Option.some_bind, Option.pure_def, Option.some.injEq] at h
        subst h
        exact List.Forall₂.cons hx (ih ys hxs)

theorem omap_id_of {α : Type} (f : α → Option α) (l : List α)
    (h : ∀ x ∈ l, f x = some x) : omap f l = some l := by
  induction l with
  | nil => rfl
  | cons x xs ih =>
    have hx := h x (List.mem_cons_self x xs)
    have hxs := ih fun y hy => h y (List.mem_cons_of_mem x hy)
    simp [omap, hx, hxs]

/-- C1 counterexample: the lazy difference `D = Bound[0,10] - LiteralInt 5`
(exactly the value `difference` itself produces) satisfies neither
`D.super_of(D)` nor `D.equals(D)`; reflexivity also fails for the empty
interval `Bound(+inf, +inf)` and for the nested union
`Union [Union [Top]]`. -/
theorem c1_counterexample :
    difference 16 (.Bound (.Inclusive 0) (.Inclusive 10)) (.LiteralInt 5) =
      some (.Difference (.Bound (.Inclusive 0) (.Inclusive 10)) (.LiteralInt 5))
    ∧ super_of 40 (.Difference (.Bound (.Inclusive 0) (.Inclusive 10)) (.LiteralInt 5))
        (.Difference (.Bound (.Inclusive 0) (.Inclusive 10)) (.LiteralInt 5)) = some false
    ∧ equals 40 (.Difference (.Bound (.Inclusive 0) (.Inclusive 10)) (.LiteralInt 5))
        (.Difference (.Bound (.Inclusive 0) (.Inclusive 10)) (.LiteralInt 5)) = some false
    ∧ super_of 5 (.Bound .PositiveInfinity .PositiveInfinity)
        (.Bound .PositiveInfinity .PositiveInfinity) = some false
    ∧ super_of 20 (.Union [.Union [.Top]]) (.Union [.Union [.Top]]) = some false :=
  ⟨rfl, rfl, rfl, rfl, rfl⟩

/-- C2 counterexample: with `A = Bound[0,10]` and `B = Bound[5,15]`,
`A.difference(B)` returns `A` itself (the partially overlapping intervals
have no `super_of` relation, so `direct_difference` treats them as
disjoint), and `A.difference(B).intersection(B)` is `Bound[5,10]`, which
does not equal `Bottom`. -/
theorem c2_counterexample :
    difference 16 (.Bound (.Inclusive 0) (.Inclusive 10))
        (.Bound (.Inclusive 5) (.Inclusive 15)) =
      some (.Bound (.Inclusive 0) (.Inclusive 10))
    ∧ intersection 16 (.Bound (.Inclusive 0) (.Inclusive 10))
        (.Bound (.Inclusive 5) (.Inclusive 15)) =
      some (.Bound (.Inclusive 5) (.Inclusive 10))
    ∧ ((difference 16 (.Bound (.Inclusive 0) (.Inclusive 10))
          (.Bound (.Inclusive 5) (.Inclusive 15))).bind fun d =>
        (intersection 16 d (.Bound (.Inclusive 5) (.Inclusive 15))).bind fun i =>
          equals 16 i .Bottom) = some false :=
  ⟨rfl, rfl, rfl⟩

/-- C3 counterexample: `make_union` can return `Union` values violating
every part of the reduced-form invariant: `make_union [Union [Bottom]]`
returns `Union [Bottom]` unchanged (a member is `Bottom` and a `Union`!),
`make_union [Union [Top]] ++ ...` keeps a `Top` member, and an unflattened
input yields a nested `Union` member. -/
theorem c3_counterexample :
    make_union 16 [.Union [.Bottom]] = some (.Union [.Bottom])
    ∧ make_union 16 [.Union [.Top], .LiteralInt 5] = some (.Union [.Top])
    ∧ make_union 16 [.Union [.LiteralInt 1, .LiteralString "a"], .LiteralFloat (5 / 2)] =
      some (.Union [.Union [.LiteralInt 1, .LiteralString "a"], .LiteralFloat (5 / 2)]) :=
  ⟨rfl, rfl, rfl⟩

/-- C4 counterexample: `reduce` leaves the empty interval
`Bound(Inclusive 5, Exclusive 5)` completely unchanged; the result is an
empty interval and is not `Bottom`. -/
theorem c4_counterexample :
    reduce 5 (.Bound (.Inclusive 5) (.Exclusive 5)) =
      some (.Bound (.Inclusive 5) (.Exclusive 5))
    ∧ IntField.is_empty ⟨.Inclusive 5, .Exclusive 5⟩ = true
    ∧ (Constraint.Bound (.Inclusive 5) (.Exclusive 5)) ≠ .Bottom :=
  ⟨rfl, rfl, fun h => Constraint.noConfusion h⟩

/-- C4 amended: `reduce` returns every `Bound` and `FloatBound` (empty or
not) unchanged, so empty intervals do survive `reduce`; empty intervals
are replaced by `Bottom` only on the intersection paths, where
`direct_intersection` of two integer or two float intervals with empty
interval intersection yields `Bottom`. -/
theorem c4_amended :
    (∀ (n : Nat) (s e : Bound), reduce (n + 1) (.Bound s e) = some (.Bound s e))
    ∧ (∀ (n : Nat) (s e : FloatBound),
        reduce (n + 1) (.FloatBound s e) = some (.FloatBound s e))
    ∧ (∀ (n : Nat) (s1 e1 s2 e2 : Bound),
        (IntField.intersection ⟨s1, e1⟩ ⟨s2, e2⟩).is_empty = true →
        direct_intersection (n + 1) (.Bound s1 e1) (.Bound s2 e2) = some .Bottom)
    ∧ (∀ (n : Nat) (s1 e1 s2 e2 : FloatBound),
        (FloatField.intersection ⟨s1, e1⟩ ⟨s2, e2⟩).is_empty = true →
        direct_intersection (n + 1) (.FloatBound s1 e1) (.FloatBound s2 e2) =
          some .Bottom) := by
  refine ⟨fun n s e => rfl, fun n s e => rfl, fun n s1 e1 s2 e2 h => ?_, fun n s1 e1 s2 e2 h => ?_⟩
  · have : direct_intersection (n + 1) (.Bound s1 e1) (.Bound s2 e2) =
        some (if (IntField.intersection ⟨s1, e1⟩ ⟨s2, e2⟩).is_empty then .Bottom
          else .Bound (IntField.intersection ⟨s1, e1⟩ ⟨s2, e2⟩).s
            (IntField.intersection ⟨s1, e1⟩ ⟨s2, e2⟩).e) := rfl
    rw [this, h]
    simp
  · have : direct_intersection (n + 1) (.FloatBound s1 e1) (.FloatBound s2 e2) =
        some (if (FloatField.intersection ⟨s1, e1⟩ ⟨s2, e2⟩).is_empty then .Bottom
          else .FloatBound (FloatField.intersection ⟨s1, e1⟩ ⟨s2, e2⟩).s
            (FloatField.intersection ⟨s1, e1⟩ ⟨s2, e2⟩).e) := rfl
    rw [this, h]
    simp

/-- C4 witness for the amended statement. -/
theorem c4_witness :
    direct_intersection 3 (.Bound (.Inclusive 5) (.Inclusive 6))
      (.Bound (.Inclusive 8) (.Inclusive 9)) = some .Bottom :=
  c4_amended.2.2.1 2 (.Inclusive 5) (.Inclusive 6) (.Inclusive 8) (.Inclusive 9) rfl

/-- Modelled from the spec (claim C6 wording, spec section 4.B.4): the
`Int` with `FloatBound` intersection tightens the real endpoints to the
enclosed integer endpoints: ceil of the value for an inclusive lower
bound, floor plus one for an exclusive lower bound, floor for an
inclusive upper bound, ceil minus one for an exclusive upper bound,
returning a `Bound`, or `Bottom` when the tightened integer interval is
empty. -/
def spec_int_floatbound_intersection (s e : FloatBound) : Constraint :=
  let lo : Bound :=
    match s with
    | .Inclusive v => .Inclusive v.ceil
    | .Exclusive v => .Inclusive (v.floor + 1)
    | .NegativeInfinity => .NegativeInfinity
    | .PositiveInfinity => .PositiveInfinity
  let hi : Bound :=
    match e with
    | .Inclusive v => .Inclusive v.floor
    | .Exclusive v => .Inclusive (v.ceil - 1)
    | .NegativeInfinity => .NegativeInfinity
    | .PositiveInfinity => .PositiveInfinity
  if (IntField.mk lo hi).is_empty then .Bottom else .Bound lo hi

/-- C6: `Int.intersection(FloatBound(s, e))` computes exactly the
spec-described integer tightening for every pair of float endpoints, and
in particular `Int ∩ FloatBound(-inf, Inclusive 10.5]` is
`Bound(-inf, Inclusive 10]`. -/
theorem c6_int_floatbound :
    (∀ s e, intersection 9 .Int (.FloatBound s e) =
      some (spec_int_floatbound_intersection s e))
    ∧ intersection 9 .Int
        (.FloatBound .NegativeInfinity (.Inclusive (⟨21, 2, by decide, by norm_num⟩ : Rat))) =
      some (.Bound .NegativeInfinity (.Inclusive 10)) := by
  constructor
  · intro s e
    cases s <;> cases e <;> rfl
  · rfl

/-- C7: `Float.super_of(LiteralInt v)` is true for every `v`, while
`Int.super_of(LiteralFloat w)` is false for every `w`, even integral ones;
yet `Int.intersection(LiteralFloat 2.0)` is `LiteralInt 2`, and
`Int.intersection(LiteralFloat w)` is `Bottom` whenever `w` has a nonzero
fractional part. -/
theorem c7_float_int_asymmetry :
    (∀ v : Int, super_of 1 .Float (.LiteralInt v) = some true)
    ∧ (∀ w : Rat, super_of 1 .Int (.LiteralFloat w) = some false)
    ∧ super_of 1 .Int (.LiteralFloat 2) = some false
    ∧ intersection 9 .Int (.LiteralFloat 2) = some (.LiteralInt 2)
    ∧ (∀ w : Rat, w.den ≠ 1 → intersection 9 .Int (.LiteralFloat w) = some .Bottom) := by
  refine ⟨fun v => rfl, fun w => rfl, rfl, rfl, fun w h => ?_⟩
  have heq : intersection 9 .Int (.LiteralFloat w) =
      some (if w.den = 1 then .LiteralInt w.num else .Bottom) := rfl
  rw [heq, if_neg h]

/-- C7 witness: the fractional case applied at `w = 5/2`. -/
theorem c7_witness :
    intersection 9 .Int (.LiteralFloat (⟨5, 2, by decide, by norm_num⟩ : Rat)) = some .Bottom :=
  c7_float_int_asymmetry.2.2.2.2 ⟨5, 2, by decide, by norm_num⟩ (by decide)

/-- C9: the constraint type carries `LiteralBool` and `Bool` variants
(modelled from the spec, since the enum in src omits them although
src/src/main.rs uses them), and `Bool.super_of(LiteralBool b)` is true
for every boolean `b`. -/
theorem c9_bool_variants :
    ∀ b : Bool, super_of 1 .Bool (.LiteralBool b) = some true :=
  fun _ => rfl

/-- C5: `Tuple(T1).super_of(Tuple(T2))` returns true exactly when the two
element lists have the same arity and `super_of` holds componentwise (at
the component fuel, mirroring the recursive call structure). -/
theorem c5_tuple_componentwise (t1 t2 : List Constraint) (n : Nat) :
    super_of (n + 1) (.Tuple t1) (.Tuple t2) = some true ↔
    (t1.length = t2.length ∧
      ∀ (i : Nat) (h1 : i < t1.length) (h2 : i < t2.length),
        super_of n t1[i] t2[i] = some true) := by
  have hunf : super_of (n + 1) (.Tuple t1) (.Tuple t2) =
      if t1.length ≠ t2.length then some false
      else oall (fun p => super_of n p.1 p.2) (t1.zip t2) := rfl
  rw [hunf]
  by_cases hlen : t1.length = t2.length
  · rw [if_neg (by simpa using hlen), oall_eq_true]
    constructor
    · refine fun h => ⟨hlen, fun i h1 h2 => ?_⟩
      apply h (t1[i], t2[i])
      have hz : i < (t1.zip t2).length := by
        rw [List.length_zip]; omega
      have hm := List.getElem_mem hz
      rwa [List.getElem_zip] at hm
    · rintro ⟨-, h⟩ p hp
      obtain ⟨i, hi, hpe⟩ := List.mem_iff_getElem.mp hp
      have h1 : i < t1.length := by rw [List.length_zip] at hi; omega
      have h2 : i < t2.length := by rw [List.length_zip] at hi; omega
      rw [List.getElem_zip] at hpe
      rw [← hpe]
      exact h i h1 h2
  · rw [if_pos (by simpa using hlen)]
    constructor
    · intro h; cases h
    · rintro ⟨h, -⟩; exact absurd h hlen

/-- C5 witness. -/
theorem c5_witness : super_of 3 (.Tuple [.Int]) (.Tuple [.LiteralInt 3]) = some true :=
  (c5_tuple_componentwise [.Int] [.LiteralInt 3] 2).mpr
    ⟨rfl, fun i h1 _ => by
      have hi : i = 0 := Nat.lt_one_iff.mp h1
      subst hi
      rfl⟩

/-- C8: when neither tuple subsumes the other (at the fuels the
intersection path consults), `Tuple(T1).intersection(Tuple(T2))` is
`Bottom`: the specialised table has no Tuple case and the refine-union
fallback yields `Bottom` in both argument orders. -/
theorem c8_tuple_intersection_bottom (t1 t2 : List Constraint) (n : Nat)
    (h1 : super_of (n + 2) (.Tuple t1) (.Tuple t2) = some false)
    (h2 : super_of (n + 2) (.Tuple t2) (.Tuple t1) = some false)
    (h3 : super_of n (.Tuple t1) (.Tuple t2) = some false)
    (h4 : super_of n (.Tuple t2) (.Tuple t1) = some false) :
    intersection (n + 3) (.Tuple t1) (.Tuple t2) = some .Bottom := by
  obtain ⟨m, rfl⟩ : ∃ m, n = m + 1 := by
    cases n with
    | zero => cases h3
    | succ m => exact ⟨m, rfl⟩
  have step : intersection (m + 1 + 3) (.Tuple t1) (.Tuple t2) =
      (super_of (m + 1 + 2) (.Tuple t1) (.Tuple t2)).bind fun s1 =>
        if s1 then some (.Tuple t2) else
        (super_of (m + 1 + 2) (.Tuple t2) (.Tuple t1)).bind fun s2 =>
        if s2 then some (.Tuple t1) else
        (omap (fun p => direct_intersection (m + 1 + 2) p.1 p.2)
          [(.Tuple t1, .Tuple t2)]).bind fun rs =>
        reduce_union (m + 1 + 2) rs := rfl
  have stepd : direct_intersection (m + 1 + 2) (.Tuple t1) (.Tuple t2) =
      (refine (m + 2) (.Tuple t1) (.Tuple t2)).bind fun ra =>
        (refine (m + 2) (.Tuple t2) (.Tuple t1)).bind fun rb =>
        union (m + 2) ra rb := rfl
  have stepr1 : refine (m + 2) (.Tuple t1) (.Tuple t2) =
      (super_of (m + 1) (.Tuple t1) (.Tuple t2)).bind fun s =>
        some (if s then .Tuple t2 else .Bottom) := rfl
  have stepr2 : refine (m + 2) (.Tuple t2) (.Tuple t1) =
      (super_of (m + 1) (.Tuple t2) (.Tuple t1)).bind fun s =>
        some (if s then .Tuple t1 else .Bottom) := rfl
  rw [step, h1, h2]
  simp only [Option.some_bind, Bool.false_eq_true, if_false]
  rw [show (omap (fun p => direct_intersection (m + 1 + 2) p.1 p.2)
      [(Constraint.Tuple t1, Constraint.Tuple t2)]) =
      (direct_intersection (m + 1 + 2) (.Tuple t1) (.Tuple t2)).bind fun y =>
        some [y] from rfl]
  rw [stepd, stepr1, stepr2, h3, h4]
  simp only [Option.some_bind, Bool.false_eq_true, if_false]
  rfl

/-- C8 witness: `Tuple([Bound[0,10]]) ∩ Tuple([Bound[5,15]])` is `Bottom`
although the component intervals overlap. -/
theorem c8_witness :
    intersection 7 (.Tuple [.Bound (.Inclusive 0) (.Inclusive 10)])
      (.Tuple [.Bound (.Inclusive 5) (.Inclusive 15)]) = some .Bottom :=
  c8_tuple_intersection_bottom [.Bound (.Inclusive 0) (.Inclusive 10)]
    [.Bound (.Inclusive 5) (.Inclusive 15)] 4 rfl rfl rfl rfl

theorem super_of_bottom_left {n : Nat} {c : Constraint}
    (h : super_of n .Bottom c = some true) : c = .Bottom := by
  cases n with
  | zero => cases h
  | succ n => cases c <;> first | rfl | cases h

theorem reduce_difference_atoms (n : Nat) (a b : Constraint)
    (ha : isAtom a = true) (hb : isAtom b = true) :
    reduce_difference (n + 1) a b = direct_difference n a b := by
  cases a <;> cases b <;> first | rfl | simp [isAtom] at ha hb

theorem direct_difference_super (n : Nat) (a b : Constraint)
    (h : super_of n b a = some true) :
    direct_difference (n + 1) a b = some (some .Bottom) := by
  have e : direct_difference (n + 1) a b =
      (if isTop b then some (some .Bottom)
      else if isBottom a then some (some .Bottom)
      else if isBottom b then some (some a)
      else do
        let s1 ← super_of n b a
        if s1 then pure (some .Bottom)
        else do
          let s2 ← super_of n a b
          if s2 then pure none else pure (some a)) := rfl
  rw [e]
  by_cases ht : isTop b = true
  · rw [if_pos ht]
  · rw [if_neg ht]
    by_cases hba : isBottom a = true
    · rw [if_pos hba]
    · rw [if_neg hba]
      by_cases hbb : isBottom b = true
      · exfalso
        have hb : b = .Bottom := by cases b <;> first | rfl | cases hbb
        subst hb
        have ha := super_of_bottom_left h
        subst ha
        exact hba rfl
      · rw [if_neg hbb, h]
        rfl

/-- C2 amended: the difference law `A.difference(B).intersection(B)
.equals(Bottom)` does hold when `B.super_of(A)` and both sides are atomic
(then the difference is `Bottom` and `Bottom ∩ B = Bottom ≡ Bottom`), but
it fails in general: for partially overlapping intervals
`direct_difference` returns `A` although `A` is not disjoint from `B`. -/
theorem c2_amended (a b : Constraint) (n : Nat)
    (ha : isAtom a = true) (hb : isAtom b = true)
    (h : super_of n b a = some true) :
    difference (n + 3) a b = some .Bottom
    ∧ intersection 2 .Bottom b = some .Bottom
    ∧ equals 2 .Bottom .Bottom = some true := by
  refine ⟨?_, ?_, rfl⟩
  · have e : difference (n + 3) a b =
        (reduce_difference (n + 2) a b).bind fun r =>
          match r with
          | some diff => pure diff
          | none => pure (.Difference a b) := rfl
    rw [e, reduce_difference_atoms (n + 1) a b ha hb,
      direct_difference_super n a b h]
    rfl
  · cases b <;> rfl

/-- C2 witness: `B = Bound[0,10]` subsumes `A = LiteralInt 5`, and the
amended difference law chain evaluates to `Bottom`. -/
theorem c2_witness :
    difference 4 (.LiteralInt 5) (.Bound (.Inclusive 0) (.Inclusive 10)) = some .Bottom :=
  (c2_amended (.LiteralInt 5) (.Bound (.Inclusive 0) (.Inclusive 10)) 1 rfl rfl rfl).1

theorem oall_congr {α : Type} (f g : α → Option Bool) (l : List α)
    (hfg : ∀ x ∈ l, ∀ r, f x = some r → g x = some r) :
    ∀ r, oall f l = some r → oall g l = some r := by
  induction l with
  | nil => intro r h; exact h
  | cons x xs ih =>
    intro r h
    simp only [oall, Option.bind_eq_bind] at h ⊢
    cases hx : f x with
    | none => rw [hx] at h; cases h
    | some b =>
      rw [hx] at h
      rw [hfg x (List.mem_cons_self x xs) b hx]
      cases b with
      | true =>
        simp only [Option.some_bind, if_true] at h ⊢
        exact ih (fun y hy => hfg y (List.mem_cons_of_mem x hy)) r h
      | false =>
        simpa using h

theorem oany_congr {α : Type} (f g : α → Option Bool) (l : List α)
    (hfg : ∀ x ∈ l, ∀ r, f x = some r → g x = some r) :
    ∀ r, oany f l = some r → oany g l = some r := by
  induction l with
  | nil => intro r h; exact h
  | cons x xs ih =>
    intro r h
    simp only [oany, Option.bind_eq_bind] at h ⊢
    cases hx : f x with
    | none => rw [hx] at h; cases h
    | some b =>
      rw [hx] at h
      rw [hfg x (List.mem_cons_self x xs) b hx]
      cases b with
      | true => simpa using h
      | false =>
        simp only [Option.some_bind, Bool.false_eq_true, if_false] at h ⊢
        exact ih (fun y hy => hfg y (List.mem_cons_of_mem x hy)) r h

theorem omap_congr {α β : Type} (f g : α → Option β) (l : List α)
    (hfg : ∀ x ∈ l, ∀ y, f x = some y → g x = some y) :
    ∀ rs, omap f l = some rs → omap g l = some rs := by
  induction l with
  | nil => intro rs h; exact h
  | cons x xs ih =>
    intro rs h
    simp only [omap, Option.bind_eq_bind] at h ⊢
    cases hx : f x with
    | none => rw [hx] at h; cases h
    | some y =>
      rw [hx] at h
      rw [hfg x (List.mem_cons_self x xs) y hx]
      cases hxs : omap f xs with
      | none => rw [hxs] at h; cases h
      | some ys =>
        rw [hxs] at h
        rw [ih (fun z hz => hfg z (List.mem_cons_of_mem x hz)) ys hxs]
        exact h

theorem omap_mem {α β : Type} (f : α → Option β) :
    ∀ (l : List α) (rs : List β), omap f l = some rs →
    ∀ y ∈ rs, ∃ x ∈ l, f x = some y := by
  intro l
  induction l with
  | nil =>
    intro rs h y hy
    rw [omap] at h
    cases h
    cases hy
  | cons x xs ih =>
    intro rs h y hy
    simp only [omap, Option.bind_eq_bind] at h
    cases hx : f x with
    | none => rw [hx] at h; cases h
    | some z =>
      rw [hx] at h
      cases hxs : omap f xs with
      | none => rw [hxs] at h; cases h
      | some ys =>
        rw [hxs] at h
        simp only [Option.some_bind, Option.pure_def, Option.some.injEq] at h
        subst h
        rcases List.mem_cons.mp hy with rfl | hy
        · exact ⟨x, List.mem_cons_self x xs, hx⟩
        · obtain ⟨w, hw, hfw⟩ := ih ys hxs y hy
          exact ⟨w, List.mem_cons_of_mem x hw, hfw⟩

/-- Fuel monotonicity of `make_union_flat`. -/
theorem flat_mono : ∀ (n : Nat) (c : Constraint) (L : List Constraint),
    make_union_flat n c = some L → make_union_flat (n + 1) c = some L := by
  intro n
  induction n with
  | zero => intro c L h; cases h
  | succ n ih =>
    intro c L h
    cases c <;> try exact h
    case Union l =>
      have e : make_union_flat (n + 1) (.Union l) =
          (omap (fun e => make_union_flat n e) l).bind fun ls => some ls.flatten := rfl
      have e2 : make_union_flat (n + 1 + 1) (.Union l) =
          (omap (fun e => make_union_flat (n + 1) e) l).bind fun ls => some ls.flatten := rfl
      rw [e] at h
      rw [e2]
      cases ho : omap (fun e => make_union_flat n e) l with
      | none => rw [ho] at h; cases h
      | some ls =>
        rw [ho] at h
        rw [omap_congr _ _ l (fun x _ y hy => ih x y hy) ls ho]
        exact h

theorem flat_mono_le {n m : Nat} (hnm : n ≤ m) {c : Constraint} {L : List Constraint}
    (h : make_union_flat n c = some L) : make_union_flat m c = some L := by
  induction hnm with
  | refl => exact h
  | step _ ih => exact flat_mono _ _ _ ih

/-- Flat elements of a well-formed constraint are well-formed. -/
theorem flat_wf_mem : ∀ (n : Nat) (c : Constraint) (L : List Constraint),
    make_union_flat n c = some L → wfRefl c = true →
    ∀ x ∈ L, wfRefl x = true := by
  intro n
  induction n with
  | zero => intro c L h; cases h
  | succ n ih =>
    intro c L h hwf x hx
    cases c <;>
      first
      | (cases h; rcases List.mem_singleton.mp hx with rfl; exact hwf)
      | skip
    case Union l =>
      have e : make_union_flat (n + 1) (.Union l) =
          (omap (fun e => make_union_flat n e) l).bind fun ls => some ls.flatten := rfl
      rw [e] at h
      cases ho : omap (fun e => make_union_flat n e) l with
      | none => rw [ho] at h; cases h
      | some ls =>
        rw [ho] at h
        simp only [Option.some_bind, Option.some.injEq] at h
        subst h
        obtain ⟨li, hli, hxli⟩ := List.mem_flatten.mp hx
        obtain ⟨m, hm, hflat⟩ := omap_mem _ l ls ho li hli
        exact ih m li hflat (wfReflL_mem (wfRefl_union hwf).2 m hm) x hxli

/-- Flat elements are never `Union` nodes. -/
theorem flat_nonunion : ∀ (n : Nat) (c : Constraint) (L : List Constraint),
    make_union_flat n c = some L → ∀ x ∈ L, ∀ l', x ≠ .Union l' := by
  intro n
  induction n with
  | zero => intro c L h; cases h
  | succ n ih =>
    intro c L h x hx l' hne
    cases c <;>
      first
      | (cases h; rcases List.mem_singleton.mp hx with rfl; cases hne)
      | skip
    case Union l =>
      have e : make_union_flat (n + 1) (.Union l) =
          (omap (fun e => make_union_flat n e) l).bind fun ls => some ls.flatten := rfl
      rw [e] at h
      cases ho : omap (fun e => make_union_flat n e) l with
      | none => rw [ho] at h; cases h
      | some ls =>
        rw [ho] at h
        simp only [Option.some_bind, Option.some.injEq] at h
        subst h
        obtain ⟨li, hli, hxli⟩ := List.mem_flatten.mp hx
        obtain ⟨m, hm, hflat⟩ := omap_mem _ l ls ho li hli
        exact ih m li hflat x hxli l' hne

theorem flat_single (n : Nat) (c : Constraint) (hc : isUnionC c = false) :
    make_union_flat (n + 1) c = some [c] := by
  cases c <;> first | rfl | cases hc

theorem flat_size : ∀ (n : Nat) (c : Constraint) (L : List Constraint),
    make_union_flat n c = some L → ∀ x ∈ L,
    sizeOf x ≤ sizeOf c ∧ (isUnionC c = true → sizeOf x < sizeOf c) := by
  intro n
  induction n with
  | zero => intro c L h; cases h
  | succ n ih =>
    intro c L h x hx
    cases c <;>
      first
      | (cases h; rcases List.mem_singleton.mp hx with rfl;
         exact ⟨Nat.le_refl _, fun hu => by cases hu⟩)
      | skip
    case Union l =>
      have e : make_union_flat (n + 1) (.Union l) =
          (omap (fun e => make_union_flat n e) l).bind fun ls => some ls.flatten := rfl
      rw [e] at h
      cases ho : omap (fun e => make_union_flat n e) l with
      | none => rw [ho] at h; cases h
      | some ls =>
        rw [ho] at h
        simp only [Option.some_bind, Option.some.injEq] at h
        subst h
        obtain ⟨li, hli, hxli⟩ := List.mem_flatten.mp hx
        obtain ⟨m, hm, hflat⟩ := omap_mem _ l ls ho li hli
        have hxm := (ih m li hflat x hxli).1
        have hml : sizeOf m < sizeOf l := List.sizeOf_lt_of_mem hm
        have hsz : sizeOf (Constraint.Union l) = 1 + sizeOf l := by
          simp [Constraint.Union.sizeOf_spec]
        constructor
        · omega
        · intro _; omega

theorem sizeOf_constraint_pos (c : Constraint) : 0 < sizeOf c := by
  cases c <;> simp

theorem flat_exists_list (N : Nat)
    (IH : ∀ c : Constraint, sizeOf c ≤ N → ∃ n L, make_union_flat n c = some L) :
    ∀ (l : List Constraint), sizeOf l ≤ N + 1 →
    ∃ n ls, omap (fun e => make_union_flat n e) l = some ls := by
  intro l
  induction l with
  | nil => intro _; exact ⟨0, [], rfl⟩
  | cons y ys ihl =>
    intro hsz
    simp only [List.cons.sizeOf_spec] at hsz
    have hy : sizeOf y ≤ N := by omega
    have hys : sizeOf ys ≤ N + 1 := by omega
    obtain ⟨n1, L1, h1⟩ := IH y hy
    obtain ⟨n2, ls2, h2⟩ := ihl hys
    refine ⟨max n1 n2, L1 :: ls2, ?_⟩
    have hh1 : make_union_flat (max n1 n2) y = some L1 :=
      flat_mono_le (Nat.le_max_left _ _) h1
    have hh2 : omap (fun e => make_union_flat (max n1 n2) e) ys = some ls2 :=
      omap_congr _ _ ys (fun x _ z hz => flat_mono_le (Nat.le_max_right _ _) hz) ls2 h2
    simp [omap, hh1, hh2]

theorem flat_exists_aux : ∀ (N : Nat) (c : Constraint), sizeOf c ≤ N →
    ∃ n L, make_union_flat n c = some L := by
  intro N
  induction N with
  | zero =>
    intro c hc
    exact absurd hc (by have := sizeOf_constraint_pos c; omega)
  | succ N ihN =>
    intro c hc
    cases hcu : isUnionC c with
    | false => exact ⟨1, [c], flat_single 0 c hcu⟩
    | true =>
      cases c <;> try cases hcu
      case _ l =>
        have hl : sizeOf l ≤ N := by
          simp only [Constraint.Union.sizeOf_spec] at hc; omega
        obtain ⟨n, ls, hls⟩ := flat_exists_list N ihN l (by omega)
        refine ⟨n + 1, ls.flatten, ?_⟩
        have e : make_union_flat (n + 1) (.Union l) =
            (omap (fun e => make_union_flat n e) l).bind fun ls => some ls.flatten := rfl
        rw [e, hls]
        rfl

theorem flat_exists (c : Constraint) : ∃ n L, make_union_flat n c = some L :=
  flat_exists_aux (sizeOf c) c (Nat.le_refl _)

theorem mono_tuple_step {n : Nat} {t1 t2 : List Constraint} {r : Bool}
    (IH : ∀ (a b : Constraint) (r : Bool), wfRefl a = true → wfRefl b = true →
      super_of n a b = some r → super_of (n + 1) a b = some r)
    (hw1 : wfReflL t1 = true) (hw2 : wfReflL t2 = true)
    (h : (if t1.length ≠ t2.length then some false
      else oall (fun p => super_of n p.1 p.2) (t1.zip t2)) = some r) :
    (if t1.length ≠ t2.length then some false
      else oall (fun p => super_of (n + 1) p.1 p.2) (t1.zip t2)) = some r := by
  by_cases hl : t1.length ≠ t2.length
  · rwa [if_pos hl] at h ⊢
  · rw [if_neg hl] at h ⊢
    refine oall_congr _ _ _ (fun p hp r' h' => ?_) r h
    have hm := List.of_mem_zip hp
    exact IH p.1 p.2 r' (wfReflL_mem hw1 _ hm.1) (wfReflL_mem hw2 _ hm.2) h'

theorem mono_union_left_step {n : Nat} {a_l : List Constraint} {b : Constraint} {r : Bool}
    (IH : ∀ (a b : Constraint) (r : Bool), wfRefl a = true → wfRefl b = true →
      super_of n a b = some r → super_of (n + 1) a b = some r)
    (hwa : wfRefl (.Union a_l) = true) (hwb : wfRefl b = true)
    (h : (make_union_flat n b).bind (fun bs =>
      oall (fun be => oany (fun ae => super_of n ae be) a_l) bs) = some r) :
    (make_union_flat (n + 1) b).bind (fun bs =>
      oall (fun be => oany (fun ae => super_of (n + 1) ae be) a_l) bs) = some r := by
  cases hf : make_union_flat n b with
  | none => rw [hf] at h; cases h
  | some bs =>
    rw [hf] at h
    rw [flat_mono _ _ _ hf]
    simp only [Option.some_bind] at h ⊢
    refine oall_congr _ _ _ (fun be hbe r' h' => ?_) r h
    refine oany_congr _ _ _ (fun ae hae r'' h'' => ?_) r' h'
    exact IH ae be r'' (wfReflL_mem (wfRefl_union hwa).2 _ hae)
      (flat_wf_mem _ _ _ hf hwb be hbe) h''

theorem mono_union_right_step {n : Nat} {a : Constraint} {b_l : List Constraint} {r : Bool}
    (IH : ∀ (a b : Constraint) (r : Bool), wfRefl a = true → wfRefl b = true →
      super_of n a b = some r → super_of (n + 1) a b = some r)
    (hwa : wfRefl a = true) (hwb : wfRefl (.Union b_l) = true)
    (h : oall (fun c => super_of n a c) b_l = some r) :
    oall (fun c => super_of (n + 1) a c) b_l = some r :=
  oall_congr _ _ _
    (fun c hc r' h' => IH a c r' hwa (wfReflL_mem (wfRefl_union hwb).2 _ hc) h') r h

/-- Fuel monotonicity of `super_of` on Difference-free, empty-interval-free
constraints. -/
theorem super_of_mono_wf : ∀ (n : Nat) (a b : Constraint) (r : Bool),
    wfRefl a = true → wfRefl b = true →
    super_of n a b = some r → super_of (n + 1) a b = some r := by
  intro n
  induction n with
  | zero => intro a b r _ _ h; cases h
  | succ n IH =>
    intro a b r hwa hwb h
    cases a <;> cases b <;>
      first
        | exact h
        | exact Bool.noConfusion hwa
        | exact Bool.noConfusion hwb
        | exact mono_tuple_step IH hwa hwb h
        | exact mono_union_left_step IH hwa hwb h
        | exact mono_union_right_step IH hwa hwb h

theorem super_of_mono_le {n m : Nat} (hnm : n ≤ m) {a b : Constraint} {r : Bool}
    (hwa : wfRefl a = true) (hwb : wfRefl b = true)
    (h : super_of n a b = some r) : super_of m a b = some r := by
  induction hnm with
  | refl => exact h
  | step _ ih => exact super_of_mono_wf _ _ _ _ hwa hwb ih

theorem common_fuel_pairs (l : List (Constraint × Constraint))
    (h : ∀ p ∈ l, wfRefl p.1 = true ∧ wfRefl p.2 = true ∧
      ∃ n r, super_of n p.1 p.2 = some r) :
    ∃ n, ∀ p ∈ l, ∃ r, super_of n p.1 p.2 = some r := by
  induction l with
  | nil => exact ⟨0, fun p hp => absurd hp (List.not_mem_nil p)⟩
  | cons x xs ih =>
    obtain ⟨hw1, hw2, n1, r1, h1⟩ := h x (List.mem_cons_self x xs)
    obtain ⟨n2, h2⟩ := ih fun p hp => h p (List.mem_cons_of_mem x hp)
    refine ⟨max n1 n2, fun p hp => ?_⟩
    rcases List.mem_cons.mp hp with rfl | hp
    · exact ⟨r1, super_of_mono_le (Nat.le_max_left _ _) hw1 hw2 h1⟩
    · obtain ⟨r2, h2'⟩ := h2 p hp
      have hw := h p (List.mem_cons_of_mem x hp)
      exact ⟨r2, super_of_mono_le (Nat.le_max_right _ _) hw.1 hw.2.1 h2'⟩

theorem tot_tuple_step {N : Nat} {t1 t2 : List Constraint}
    (IH : ∀ (a b : Constraint), wfRefl a = true → wfRefl b = true →
      sizeOf a + sizeOf b ≤ N → ∃ n r, super_of n a b = some r)
    (hw1 : wfReflL t1 = true) (hw2 : wfReflL t2 = true)
    (hsz : sizeOf (Constraint.Tuple t1) + sizeOf (Constraint.Tuple t2) ≤ N + 1) :
    ∃ n r, super_of n (.Tuple t1) (.Tuple t2) = some r := by
  by_cases hl : t1.length ≠ t2.length
  · refine ⟨1, false, ?_⟩
    have e : super_of 1 (.Tuple t1) (.Tuple t2) =
        (if t1.length ≠ t2.length then some false
          else oall (fun p => super_of 0 p.1 p.2) (t1.zip t2)) := rfl
    rw [e, if_pos hl]
  · simp only [Constraint.Tuple.sizeOf_spec] at hsz
    have hdef : ∀ p ∈ t1.zip t2, wfRefl p.1 = true ∧ wfRefl p.2 = true ∧
        ∃ n r, super_of n p.1 p.2 = some r := by
      intro p hp
      have hm := List.of_mem_zip hp
      have hz1 := wfReflL_mem hw1 _ hm.1
      have hz2 := wfReflL_mem hw2 _ hm.2
      have hs1 := List.sizeOf_lt_of_mem hm.1
      have hs2 := List.sizeOf_lt_of_mem hm.2
      exact ⟨hz1, hz2, IH p.1 p.2 hz1 hz2 (by omega)⟩
    obtain ⟨n, hn⟩ := common_fuel_pairs _ hdef
    obtain ⟨bb, hbb⟩ := oall_eq_some (fun p => super_of n p.1 p.2) (t1.zip t2) hn
    refine ⟨n + 1, bb, ?_⟩
    have e : super_of (n + 1) (.Tuple t1) (.Tuple t2) =
        (if t1.length ≠ t2.length then some false
          else oall (fun p => super_of n p.1 p.2) (t1.zip t2)) := rfl
    rw [e, if_neg hl]
    exact hbb

theorem tot_union_right_step {N : Nat} {a : Constraint} {b_l : List Constraint}
    (IH : ∀ (a b : Constraint), wfRefl a = true → wfRefl b = true →
      sizeOf a + sizeOf b ≤ N → ∃ n r, super_of n a b = some r)
    (hwa : wfRefl a = true) (hwb : wfRefl (.Union b_l) = true)
    (hsz : sizeOf a + sizeOf (Constraint.Union b_l) ≤ N + 1) :
    ∃ n r, oall (fun c => super_of n a c) b_l = some r := by
  have hwbl : wfReflL b_l = true := (wfRefl_union hwb).2
  simp only [Constraint.Union.sizeOf_spec] at hsz
  have hdef : ∀ p ∈ b_l.map (fun c => (a, c)), wfRefl p.1 = true ∧ wfRefl p.2 = true ∧
      ∃ n r, super_of n p.1 p.2 = some r := by
    intro p hp
    obtain ⟨c, hc, rfl⟩ := List.mem_map.mp hp
    have hzc := wfReflL_mem hwbl _ hc
    have hsc := List.sizeOf_lt_of_mem hc
    exact ⟨hwa, hzc, IH a c hwa hzc (by omega)⟩
  obtain ⟨n, hn⟩ := common_fuel_pairs _ hdef
  obtain ⟨bb, hbb⟩ := oall_eq_some (fun c => super_of n a c) b_l (fun c hc =>
    hn (a, c) (List.mem_map.mpr ⟨c, hc, rfl⟩))
  exact ⟨n, bb, hbb⟩

theorem tot_union_left_step {N : Nat} {a_l : List Constraint} {b : Constraint}
    (IH : ∀ (a b : Constraint), wfRefl a = true → wfRefl b = true →
      sizeOf a + sizeOf b ≤ N → ∃ n r, super_of n a b = some r)
    (hwa : wfRefl (.Union a_l) = true) (hwb : wfRefl b = true)
    (hsz : sizeOf (Constraint.Union a_l) + sizeOf b ≤ N + 1) :
    ∃ n r, (make_union_flat n b).bind (fun bs =>
      oall (fun be => oany (fun ae => super_of n ae be) a_l) bs) = some r := by
  have hwal : wfReflL a_l = true := (wfRefl_union hwa).2
  simp only [Constraint.Union.sizeOf_spec] at hsz
  obtain ⟨k, bs, hbs⟩ := flat_exists b
  have hwbs : ∀ x ∈ bs, wfRefl x = true := flat_wf_mem _ _ _ hbs hwb
  have hsbs : ∀ x ∈ bs, sizeOf x ≤ sizeOf b := fun x hx => (flat_size _ _ _ hbs x hx).1
  have hdef : ∀ p ∈ bs.flatMap (fun be => a_l.map fun ae => (ae, be)),
      wfRefl p.1 = true ∧ wfRefl p.2 = true ∧ ∃ n r, super_of n p.1 p.2 = some r := by
    intro p hp
    obtain ⟨be, hbe, hp2⟩ := List.mem_flatMap.mp hp
    obtain ⟨ae, hae, rfl⟩ := List.mem_map.mp hp2
    have hza := wfReflL_mem hwal _ hae
    have hzb := hwbs be hbe
    have hsa := List.sizeOf_lt_of_mem hae
    have hsb := hsbs be hbe
    exact ⟨hza, hzb, IH ae be hza hzb (by omega)⟩
  obtain ⟨n, hn⟩ := common_fuel_pairs _ hdef
  have hinner : ∀ be ∈ bs, ∃ rb, oany (fun ae => super_of n ae be) a_l = some rb := by
    intro be hbe
    exact oany_eq_some _ _ fun ae hae =>
      hn (ae, be) (List.mem_flatMap.mpr ⟨be, hbe, List.mem_map.mpr ⟨ae, hae, rfl⟩⟩)
  obtain ⟨bb, hbb⟩ := oall_eq_some (fun be => oany (fun ae => super_of n ae be) a_l) bs hinner
  refine ⟨max k n, bb, ?_⟩
  rw [flat_mono_le (Nat.le_max_left _ _) hbs]
  simp only [Option.some_bind]
  refine oall_congr _ _ _ (fun be hbe r' h' => ?_) bb hbb
  refine oany_congr _ _ _ (fun ae hae r'' h'' => ?_) r' h'
  exact super_of_mono_le (Nat.le_max_right _ _) (wfReflL_mem hwal _ hae) (hwbs be hbe) h''

/-- Totality of `super_of` on Difference-free, empty-interval-free
constraints: some fuel suffices to return a result. -/
theorem super_of_total_aux : ∀ (N : Nat) (a b : Constraint),
    wfRefl a = true → wfRefl b = true → sizeOf a + sizeOf b ≤ N →
    ∃ n r, super_of n a b = some r := by
  intro N
  induction N with
  | zero =>
    intro a b _ _ hsz
    have ha := sizeOf_constraint_pos a
    have hb := sizeOf_constraint_pos b
    omega
  | succ N IH =>
    intro a b hwa hwb hsz
    cases a <;> cases b <;>
      first
        | exact ⟨1, _, rfl⟩
        | exact Bool.noConfusion hwa
        | exact Bool.noConfusion hwb
        | exact tot_tuple_step IH hwa hwb hsz
        | (obtain ⟨n0, r0, hh⟩ := tot_union_left_step IH hwa hwb hsz
           exact ⟨n0 + 1, r0, hh⟩)
        | (obtain ⟨n0, r0, hh⟩ := tot_union_right_step IH hwa hwb hsz
           exact ⟨n0 + 1, r0, hh⟩)

theorem super_of_total (a b : Constraint)
    (hwa : wfRefl a = true) (hwb : wfRefl b = true) :
    ∃ n r, super_of n a b = some r :=
  super_of_total_aux (sizeOf a + sizeOf b) a b hwa hwb (Nat.le_refl _)

theorem fuel_join {α : Type} (l : List α) (P : Nat → α → Prop)
    (mono : ∀ n m x, n ≤ m → x ∈ l → P n x → P m x)
    (h : ∀ x ∈ l, ∃ n, P n x) : ∃ n, ∀ x ∈ l, P n x := by
  induction l with
  | nil => exact ⟨0, fun x hx => absurd hx (List.not_mem_nil x)⟩
  | cons y ys ih =>
    obtain ⟨n1, h1⟩ := h y (List.mem_cons_self y ys)
    obtain ⟨n2, h2⟩ := ih
      (fun n m x hnm hx => mono n m x hnm (List.mem_cons_of_mem y hx))
      (fun x hx => h x (List.mem_cons_of_mem y hx))
    refine ⟨max n1 n2, fun x hx => ?_⟩
    rcases List.mem_cons.mp hx with rfl | hx
    · exact mono n1 _ x (Nat.le_max_left _ _) (List.mem_cons_self x ys) h1
    · exact mono n2 _ x (Nat.le_max_right _ _) (List.mem_cons_of_mem y hx) (h2 x hx)

theorem mem_zip_self {α : Type} : ∀ (l : List α) (p : α × α),
    p ∈ l.zip l → p.1 = p.2 ∧ p.1 ∈ l := by
  intro l
  induction l with
  | nil => intro p hp; cases hp
  | cons x xs ih =>
    intro p hp
    rcases List.mem_cons.mp hp with rfl | hp
    · exact ⟨rfl, List.mem_cons_self x xs⟩
    · obtain ⟨h1, h2⟩ := ih p hp
      exact ⟨h1, List.mem_cons_of_mem x h2⟩

theorem intfield_contains_refl (f : IntField) (h : f.is_empty = false) :
    f.contains_field f = true := by
  obtain ⟨s, e⟩ := f
  cases s <;> cases e <;>
    simp_all [IntField.is_empty, IntField.contains_field]

theorem floatfield_contains_refl (f : FloatField) (h : f.is_empty = false) :
    f.contains_field f = true := by
  obtain ⟨s, e⟩ := f
  cases s <;> cases e <;>
    simp_all [FloatField.is_empty, FloatField.contains_field]

theorem wfRefl_bound {s e : Bound} (h : wfRefl (.Bound s e) = true) :
    IntField.is_empty ⟨s, e⟩ = false := by
  have e2 : wfRefl (.Bound s e) = !(IntField.is_empty ⟨s, e⟩) := rfl
  rw [e2] at h
  cases hh : IntField.is_empty (⟨s, e⟩ : IntField) with
  | false => rfl
  | true => rw [hh] at h; cases h

theorem wfRefl_floatbound {s e : FloatBound} (h : wfRefl (.FloatBound s e) = true) :
    FloatField.is_empty ⟨s, e⟩ = false := by
  have e2 : wfRefl (.FloatBound s e) = !(FloatField.is_empty ⟨s, e⟩) := rfl
  rw [e2] at h
  cases hh : FloatField.is_empty (⟨s, e⟩ : FloatField) with
  | false => rfl
  | true => rw [hh] at h; cases h

theorem super_of_litint_refl (v : Int) :
    super_of 1 (.LiteralInt v) (.LiteralInt v) = some true := by
  have e : super_of 1 (.LiteralInt v) (.LiteralInt v) = some (decide (v = v)) := rfl
  rw [e]; simp

theorem super_of_litfloat_refl (v : Rat) :
    super_of 1 (.LiteralFloat v) (.LiteralFloat v) = some true := by
  have e : super_of 1 (.LiteralFloat v) (.LiteralFloat v) = some (decide (v = v)) := rfl
  rw [e]; simp

theorem super_of_litstring_refl (s : String) :
    super_of 1 (.LiteralString s) (.LiteralString s) = some true := by
  have e : super_of 1 (.LiteralString s) (.LiteralString s) = some (decide (s = s)) := rfl
  rw [e]; simp

theorem super_of_litbool_refl (b : Bool) :
    super_of 1 (.LiteralBool b) (.LiteralBool b) = some true := by
  have e : super_of 1 (.LiteralBool b) (.LiteralBool b) = some (decide (b = b)) := rfl
  rw [e]; simp

theorem super_of_bound_refl {s e : Bound} (h : wfRefl (.Bound s e) = true) :
    super_of 1 (.Bound s e) (.Bound s e) = some true := by
  have e2 : super_of 1 (.Bound s e) (.Bound s e) =
      some (IntField.contains_field ⟨s, e⟩ ⟨s, e⟩) := rfl
  rw [e2, intfield_contains_refl _ (wfRefl_bound h)]

theorem super_of_floatbound_refl {s e : FloatBound}
    (h : wfRefl (.FloatBound s e) = true) :
    super_of 1 (.FloatBound s e) (.FloatBound s e) = some true := by
  have e2 : super_of 1 (.FloatBound s e) (.FloatBound s e) =
      some (FloatField.contains_field ⟨s, e⟩ ⟨s, e⟩) := rfl
  rw [e2, floatfield_contains_refl _ (wfRefl_floatbound h)]

theorem cover_nonunion {c : Constraint} (hcu : isUnionC c = false)
    (hrefl : ∃ n, super_of n c c = some true) :
    ∀ (k : Nat) (L : List Constraint) (x : Constraint),
    make_union_flat k c = some L → x ∈ L → ∃ n, super_of n c x = some true := by
  intro k L x hf hx
  cases k with
  | zero => cases hf
  | succ k =>
    rw [flat_single k c hcu] at hf
    cases hf
    rcases List.mem_singleton.mp hx with rfl
    exact hrefl

theorem flat_mem_decomp {n : Nat} {l : List Constraint} {L : List Constraint}
    (h : make_union_flat n (.Union l) = some L) :
    ∀ x ∈ L, ∃ m ∈ l, ∃ k L', make_union_flat k m = some L' ∧ x ∈ L' := by
  intro x hx
  cases n with
  | zero => cases h
  | succ n =>
    have e : make_union_flat (n + 1) (.Union l) =
        (omap (fun e => make_union_flat n e) l).bind fun ls => some ls.flatten := rfl
    rw [e] at h
    cases ho : omap (fun e => make_union_flat n e) l with
    | none => rw [ho] at h; cases h
    | some ls =>
      rw [ho] at h
      simp only [Option.some_bind, Option.some.injEq] at h
      subst h
      obtain ⟨li, hli, hxli⟩ := List.mem_flatten.mp hx
      obtain ⟨m, hm, hflat⟩ := omap_mem _ l ls ho li hli
      exact ⟨m, hm, n, li, hflat, hxli⟩

theorem omap_of_pointwise {α β : Type} (f : α → Option β) (g : α → β) :
    ∀ (l : List α), (∀ x ∈ l, f x = some (g x)) → omap f l = some (l.map g) := by
  intro l
  induction l with
  | nil => intro _; rfl
  | cons x xs ih =>
    intro h
    have hx := h x (List.mem_cons_self x xs)
    have hxs := ih fun y hy => h y (List.mem_cons_of_mem x hy)
    simp [omap, hx, hxs]

theorem flatten_map_singleton {α : Type} : ∀ (l : List α),
    (l.map fun x => [x]).flatten = l := by
  intro l
  induction l with
  | nil => rfl
  | cons x xs ih => simp [ih]

/-- On a union with no nested union members, `make_union_flat` returns the
member list itself. -/
theorem flat_union_of_nonunion {l : List Constraint} (h : nonUnionL l = true)
    (k : Nat) : make_union_flat (k + 2) (.Union l) = some l := by
  have e : make_union_flat (k + 2) (.Union l) =
      (omap (fun e => make_union_flat (k + 1) e) l).bind fun ls => some ls.flatten := rfl
  rw [e, omap_of_pointwise _ (fun x => [x]) l
    (fun x hx => flat_single k x (nonUnionL_mem h x hx))]
  simp [flatten_map_singleton]

/-- Reflexivity of `super_of` on well-formed constraints, by strong
induction on size. -/
theorem refl_aux : ∀ (N : Nat) (c : Constraint), wfRefl c = true → sizeOf c ≤ N →
    ∃ n, super_of n c c = some true := by
  intro N
  induction N with
  | zero =>
    intro c _ hsz
    have := sizeOf_constraint_pos c
    omega
  | succ N IH =>
    intro c hwc hsz
    cases c with
    | Top => exact ⟨1, rfl⟩
    | Bottom => exact ⟨1, rfl⟩
    | Int => exact ⟨1, rfl⟩
    | Float => exact ⟨1, rfl⟩
    | Bool => exact ⟨1, rfl⟩
    | String => exact ⟨1, rfl⟩
    | LiteralInt v => exact ⟨1, super_of_litint_refl v⟩
    | LiteralFloat v => exact ⟨1, super_of_litfloat_refl v⟩
    | LiteralBool b => exact ⟨1, super_of_litbool_refl b⟩
    | LiteralString s => exact ⟨1, super_of_litstring_refl s⟩
    | Bound s e => exact ⟨1, super_of_bound_refl hwc⟩
    | FloatBound s e => exact ⟨1, super_of_floatbound_refl hwc⟩
    | Difference a b => exact Bool.noConfusion hwc
    | Tuple t =>
      have hwl : wfReflL t = true := hwc
      simp only [Constraint.Tuple.sizeOf_spec] at hsz
      have hcomp : ∀ p ∈ t.zip t, ∃ n, super_of n p.1 p.2 = some true := by
        intro p hp
        obtain ⟨heq, hmem⟩ := mem_zip_self t p hp
        have hwp := wfReflL_mem hwl _ hmem
        have hsp := List.sizeOf_lt_of_mem hmem
        obtain ⟨n, hn⟩ := IH p.1 hwp (by omega)
        exact ⟨n, by rw [← heq]; exact hn⟩
      have hmono : ∀ n m p, n ≤ m → p ∈ t.zip t →
          super_of n p.1 p.2 = some true → super_of m p.1 p.2 = some true := by
        intro n m p hnm hp hsp
        obtain ⟨heq, hmem⟩ := mem_zip_self t p hp
        have hwp := wfReflL_mem hwl _ hmem
        exact super_of_mono_le hnm hwp (heq ▸ hwp) hsp
      obtain ⟨n, hn⟩ :=
        fuel_join (t.zip t) (fun n p => super_of n p.1 p.2 = some true) hmono hcomp
      refine ⟨n + 1, ?_⟩
      have e : super_of (n + 1) (.Tuple t) (.Tuple t) =
          (if t.length ≠ t.length then some false
            else oall (fun p => super_of n p.1 p.2) (t.zip t)) := rfl
      rw [e, if_neg (by simp)]
      exact (oall_eq_true _ _).mpr hn
    | Union l =>
      obtain ⟨hnu, hwl⟩ := wfRefl_union hwc
      simp only [Constraint.Union.sizeOf_spec] at hsz
      have hrefl : ∀ m ∈ l, ∃ n, super_of n m m = some true := by
        intro m hm
        have hwm := wfReflL_mem hwl _ hm
        have hsm := List.sizeOf_lt_of_mem hm
        exact IH m hwm (by omega)
      have hdefs : ∀ p ∈ l.flatMap (fun be => l.map fun ae => (ae, be)),
          wfRefl p.1 = true ∧ wfRefl p.2 = true ∧
          ∃ n r, super_of n p.1 p.2 = some r := by
        intro p hp
        obtain ⟨be, hbe, hp2⟩ := List.mem_flatMap.mp hp
        obtain ⟨ae, hae, rfl⟩ := List.mem_map.mp hp2
        have h1 := wfReflL_mem hwl _ hae
        have h2 := wfReflL_mem hwl _ hbe
        exact ⟨h1, h2, super_of_total ae be h1 h2⟩
      obtain ⟨n1, hn1⟩ := common_fuel_pairs _ hdefs
      obtain ⟨n2, hn2⟩ := fuel_join l (fun n m => super_of n m m = some true)
        (fun n m' x hnm hx hh =>
          super_of_mono_le hnm (wfReflL_mem hwl _ hx) (wfReflL_mem hwl _ hx) hh)
        hrefl
      have hall : oall (fun be => oany (fun ae => super_of (max n1 n2) ae be) l) l =
          some true := by
        apply (oall_eq_true _ _).mpr
        intro be hbe
        apply oany_eq_true_of
        · intro ae hae
          obtain ⟨r, hr⟩ := hn1 (ae, be)
            (List.mem_flatMap.mpr ⟨be, hbe, List.mem_map.mpr ⟨ae, hae, rfl⟩⟩)
          exact ⟨r, super_of_mono_le (Nat.le_max_left _ _)
            (wfReflL_mem hwl _ hae) (wfReflL_mem hwl _ hbe) hr⟩
        · exact ⟨be, hbe, super_of_mono_le (Nat.le_max_right _ _)
            (wfReflL_mem hwl _ hbe) (wfReflL_mem hwl _ hbe) (hn2 be hbe)⟩
      refine ⟨max n1 n2 + 2 + 1, ?_⟩
      have e : super_of (max n1 n2 + 2 + 1) (.Union l) (.Union l) =
          (make_union_flat (max n1 n2 + 2) (.Union l)).bind fun bs =>
            oall (fun be => oany (fun ae => super_of (max n1 n2 + 2) ae be) l) bs := rfl
      rw [e, flat_union_of_nonunion hnu (max n1 n2)]
      simp only [Option.some_bind]
      refine oall_congr _ _ _ (fun be hbe r' h' => ?_) true hall
      refine oany_congr _ _ _ (fun ae hae r'' h'' => ?_) r' h'
      exact super_of_mono_le (by omega)
        (wfReflL_mem hwl _ hae) (wfReflL_mem hwl _ hbe) h''

/-- C1 amended: reflexivity of subsumption and equality holds for every
constraint containing no `Difference` node, no empty interval, and no
nested `Union` (the well-formedness invariants of reduced constraints):
`A.super_of(A)` and `A.equals(A)` return true at sufficient fuel. -/
theorem c1_reflexivity_wf (c : Constraint) (h : wfRefl c = true) :
    ∃ n, super_of n c c = some true ∧ equals n c c = some true := by
  obtain ⟨n, hn⟩ := refl_aux (sizeOf c) c h (Nat.le_refl _)
  refine ⟨n + 1, super_of_mono_wf n c c true h h hn, ?_⟩
  have e : equals (n + 1) c c = (super_of n c c).bind fun r1 =>
      if r1 then super_of n c c else some false := rfl
  rw [e, hn]
  simp only [Option.some_bind, if_true]

/-- C1 witness: reflexivity on a concrete well-formed union. -/
theorem c1_witness :
    wfRefl (.Union [.LiteralInt 1, .Bound (.Inclusive 2) (.Inclusive 5)]) = true ∧
    ∃ n, super_of n (.Union [.LiteralInt 1, .Bound (.Inclusive 2) (.Inclusive 5)])
        (.Union [.LiteralInt 1, .Bound (.Inclusive 2) (.Inclusive 5)]) = some true ∧
      equals n (.Union [.LiteralInt 1, .Bound (.Inclusive 2) (.Inclusive 5)])
        (.Union [.LiteralInt 1, .Bound (.Inclusive 2) (.Inclusive 5)]) = some true :=
  ⟨by decide, c1_reflexivity_wf _ (by decide)⟩

theorem reduce_atom (k : Nat) (c : Constraint) (hc : isAtom c = true) :
    reduce (k + 1) c = some c := by
  cases c <;> first | rfl | exact Bool.noConfusion hc

theorem equals_bottom_ne_false : ∀ n, equals n .Bottom .Bottom ≠ some false := by
  intro n
  cases n with
  | zero => exact fun h => Option.noConfusion h
  | succ n =>
    cases n with
    | zero => exact fun h => Option.noConfusion h
    | succ m =>
      intro h
      have e : equals (m + 1 + 1) .Bottom .Bottom = some true := rfl
      rw [e] at h
      cases h

theorem super_of_top_some : ∀ (k : Nat) (c : Constraint) (r : Bool),
    super_of k .Top c = some r → r = true := by
  intro k c r h
  cases k with
  | zero => cases h
  | succ k =>
    have e : super_of (k + 1) .Top c = some true := by cases c <;> rfl
    rw [e] at h
    cases h
    rfl

theorem direct_union_internal_atom : ∀ (a b r : Constraint),
    direct_union_internal a b = some r → isAtom r = true := by
  intro a b r h
  cases a <;> cases b <;> simp only [direct_union_internal] at h <;> try cases h
  all_goals
    (rcases Option.map_eq_some'.mp h with ⟨u, -, rfl⟩; rfl)

theorem direct_union_atom : ∀ (n : Nat) (a b m : Constraint),
    isAtom a = true → isAtom b = true →
    direct_union n a b = some (some m) → isAtom m = true := by
  intro n a b m ha hb h
  cases n with
  | zero => cases h
  | succ n =>
    have e : direct_union (n + 1) a b =
        (super_of n a b).bind fun s1 =>
          if s1 then some (some a)
          else (super_of n b a).bind fun s2 =>
            if s2 then some (some b)
            else match direct_union_internal a b with
              | some r => some (some r)
              | none => match direct_union_internal b a with
                | some r => some (some r)
                | none => some none := rfl
    rw [e] at h
    cases h1 : super_of n a b with
    | none => rw [h1] at h; cases h
    | some s1 =>
      rw [h1] at h
      simp only [Option.some_bind] at h
      cases s1 with
      | true =>
        simp only [if_true] at h
        cases h
        exact ha
      | false =>
        simp only [Bool.false_eq_true, if_false] at h
        cases h2 : super_of n b a with
        | none => rw [h2] at h; cases h
        | some s2 =>
          rw [h2] at h
          simp only [Option.some_bind] at h
          cases s2 with
          | true =>
            simp only [if_true] at h
            cases h
            exact hb
          | false =>
            simp only [Bool.false_eq_true, if_false] at h
            cases hi1 : direct_union_internal a b with
            | some r =>
              rw [hi1] at h
              cases h
              exact direct_union_internal_atom a b m hi1
            | none =>
              rw [hi1] at h
              cases hi2 : direct_union_internal b a with
              | some r =>
                rw [hi2] at h
                cases h
                exact direct_union_internal_atom b a m hi2
              | none =>
                rw [hi2] at h
                cases h

theorem ru_absorb_inv : ∀ (u : List Constraint) (n : Nat) (cur : Constraint)
    (kept : List Constraint) (ab : Bool),
    ru_absorb n cur u = some (kept, ab) →
    kept.Sublist u ∧
    (ab = false → (∀ x ∈ u, ∃ k, super_of k x cur = some false) ∧
      (∀ x ∈ kept, ∃ k, super_of k cur x = some false)) := by
  intro u
  induction u with
  | nil =>
    intro n cur kept ab h
    cases n with
    | zero => cases h
    | succ n =>
      cases h
      exact ⟨List.Sublist.refl _, fun _ =>
        ⟨fun x hx => absurd hx (List.not_mem_nil x),
         fun x hx => absurd hx (List.not_mem_nil x)⟩⟩
  | cons e rest ih =>
    intro n cur kept ab h
    cases n with
    | zero => cases h
    | succ n =>
      have hu : ru_absorb (n + 1) cur (e :: rest) =
          (ru_absorb n cur rest).bind fun p =>
            (super_of n e cur).bind fun s1 =>
              if s1 then some (e :: p.1, true)
              else (super_of n cur e).bind fun s2 =>
                if s2 then some (p.1, p.2) else some (e :: p.1, p.2) := rfl
      rw [hu] at h
      cases hr : ru_absorb n cur rest with
      | none => rw [hr] at h; cases h
      | some p =>
        obtain ⟨kept0, ab0⟩ := p
        rw [hr] at h
        simp only [Option.some_bind] at h
        obtain ⟨hsub0, hinv0⟩ := ih n cur kept0 ab0 hr
        cases hs1 : super_of n e cur with
        | none => rw [hs1] at h; cases h
        | some s1 =>
          rw [hs1] at h
          simp only [Option.some_bind] at h
          cases s1 with
          | true =>
            simp only [if_true] at h
            cases h
            exact ⟨List.Sublist.cons₂ e hsub0, fun hfalse => Bool.noConfusion hfalse⟩
          | false =>
            simp only [Bool.false_eq_true, if_false] at h
            cases hs2 : super_of n cur e with
            | none => rw [hs2] at h; cases h
            | some s2 =>
              rw [hs2] at h
              simp only [Option.some_bind] at h
              cases s2 with
              | true =>
                simp only [if_true] at h
                cases h
                refine ⟨List.Sublist.cons e hsub0, fun hab => ?_⟩
                obtain ⟨h1, h2⟩ := hinv0 hab
                refine ⟨fun x hx => ?_, h2⟩
                rcases List.mem_cons.mp hx with rfl | hx
                · exact ⟨n, hs1⟩
                · exact h1 x hx
              | false =>
                simp only [Bool.false_eq_true, if_false] at h
                cases h
                refine ⟨List.Sublist.cons₂ e hsub0, fun hab => ?_⟩
                obtain ⟨h1, h2⟩ := hinv0 hab
                refine ⟨fun x hx => ?_, fun x hx => ?_⟩
                · rcases List.mem_cons.mp hx with rfl | hx
                  · exact ⟨n, hs1⟩
                  · exact h1 x hx
                · rcases List.mem_cons.mp hx with rfl | hx
                  · exact ⟨n, hs2⟩
                  · exact h2 x hx

theorem ru_scan_none_inv : ∀ (rl : List Constraint) (n : Nat) (cur : Constraint),
    ru_scan n cur rl = some none →
    ∀ u ∈ rl, ∃ k, direct_union k cur u = some none := by
  intro rl
  induction rl with
  | nil => intro n cur _ u hu; cases hu
  | cons x xs ih =>
    intro n cur h u hu
    cases n with
    | zero => cases h
    | succ n =>
      have hu2 : ru_scan (n + 1) cur (x :: xs) =
          (direct_union n cur x).bind fun mu =>
            match mu with
            | some merged => some (some (xs, merged))
            | none => (ru_scan n cur xs).bind fun r =>
                match r with
                | some (rem, merged) => some (some (x :: rem, merged))
                | none => some none := rfl
      rw [hu2] at h
      cases hdu : direct_union n cur x with
      | none => rw [hdu] at h; cases h
      | some mu =>
        rw [hdu] at h
        simp only [Option.some_bind] at h
        cases mu with
        | some merged => cases h
        | none =>
          cases hsc : ru_scan n cur xs with
          | none => rw [hsc] at h; cases h
          | some r =>
            rw [hsc] at h
            cases r with
            | some pr => obtain ⟨rem, m⟩ := pr; cases h
            | none =>
              rcases List.mem_cons.mp hu with rfl | hu
              · exact ⟨n, hdu⟩
              · exact ih n cur hsc u hu

theorem ru_scan_some_inv : ∀ (rl : List Constraint) (n : Nat) (cur : Constraint)
    (rem : List Constraint) (m : Constraint),
    ru_scan n cur rl = some (some (rem, m)) →
    rem.Sublist rl ∧ ∃ u ∈ rl, ∃ k, direct_union k cur u = some (some m) := by
  intro rl
  induction rl with
  | nil =>
    intro n cur rem m h
    cases n with
    | zero => cases h
    | succ n => cases h
  | cons x xs ih =>
    intro n cur rem m h
    cases n with
    | zero => cases h
    | succ n =>
      have hu2 : ru_scan (n + 1) cur (x :: xs) =
          (direct_union n cur x).bind fun mu =>
            match mu with
            | some merged => some (some (xs, merged))
            | none => (ru_scan n cur xs).bind fun r =>
                match r with
                | some (rem, merged) => some (some (x :: rem, merged))
                | none => some none := rfl
      rw [hu2] at h
      cases hdu : direct_union n cur x with
      | none => rw [hdu] at h; cases h
      | some mu =>
        rw [hdu] at h
        simp only [Option.some_bind] at h
        cases mu with
        | some merged =>
          cases h
          exact ⟨List.Sublist.cons x (List.Sublist.refl xs),
            x, List.mem_cons_self x xs, n, hdu⟩
        | none =>
          cases hsc : ru_scan n cur xs with
          | none => rw [hsc] at h; cases h
          | some r =>
            rw [hsc] at h
            cases r with
            | some pr =>
              obtain ⟨rem0, m0⟩ := pr
              cases h
              obtain ⟨hsub, u, hu, k, hk⟩ := ih n cur rem0 m hsc
              exact ⟨List.Sublist.cons₂ x hsub,
                u, List.mem_cons_of_mem x hu, k, hk⟩
            | none => cases h

/-- The pairwise relation of the reduced-union invariant: earlier member
`x` and later member `y` are unrelated by `super_of` in both directions
and `direct_union(y, x)` finds no merge. -/
def ru_rel (x y : Constraint) : Prop :=
  (∃ k, super_of k x y = some false) ∧ (∃ k, super_of k y x = some false) ∧
  (∃ k, direct_union k y x = some none)

/-- Invariant of `reduce_union`'s worklist: all accumulated elements are
atoms, none is `Bottom`, `Top` can only occur alone, and the list is
pairwise irredundant. -/
def ru_good (u : List Constraint) : Prop :=
  (∀ m ∈ u, isAtom m = true ∧ m ≠ .Bottom) ∧
  (Constraint.Top ∈ u → u = [.Top]) ∧
  List.Pairwise ru_rel u

theorem ru_good_nil : ru_good [] :=
  ⟨fun x hx => absurd hx (List.not_mem_nil x),
   fun h => absurd h (List.not_mem_nil _), List.Pairwise.nil⟩

theorem ru_good_sublist {u' u : List Constraint} (hs : u'.Sublist u)
    (hg : ru_good u) : ru_good u' := by
  obtain ⟨hm, ht, hp⟩ := hg
  refine ⟨fun x hx => hm x (hs.subset hx), fun htop => ?_, hp.sublist hs⟩
  have := ht (hs.subset htop)
  subst this
  rcases List.sublist_singleton.mp hs with rfl | rfl
  · cases htop
  · rfl

theorem ru_loop_inv : ∀ (n : Nat) (queue unique : List Constraint) (res : Constraint),
    (∀ e ∈ queue, isAtom e = true) → ru_good unique →
    ru_loop n queue unique = some res →
    ∀ l, res = .Union l →
    (∀ m ∈ l, isAtom m = true ∧ m ≠ .Bottom ∧ m ≠ .Top) ∧
    List.Pairwise ru_rel l := by
  intro n
  induction n with
  | zero => intro _ _ _ _ _ h; cases h
  | succ n IH =>
    intro queue unique res hq hg h l hres
    cases queue with
    | nil =>
      cases unique with
      | nil =>
        cases h
        cases hres
      | cons x xs =>
        cases xs with
        | nil =>
          cases h
          have hax := (hg.1 _ (List.mem_cons_self _ _)).1
          rw [hres] at hax
          exact Bool.noConfusion hax
        | cons y ys =>
          cases n with
          | zero => cases h
          | succ n' =>
            have homap : omap (fun e => reduce (n' + 1) e) (x :: y :: ys) =
                some (x :: y :: ys) :=
              omap_id_of _ _ (fun e he => reduce_atom n' e (hg.1 e he).1)
            have e2 : ru_loop (n' + 1 + 1) [] (x :: y :: ys) =
                (omap (fun e => reduce (n' + 1) e) (x :: y :: ys)).bind fun rs =>
                  some (.Union rs) := rfl
            rw [e2, homap] at h
            simp only [Option.some_bind] at h
            cases h
            injection hres with hl
            subst hl
            constructor
            · intro m hm
              obtain ⟨ha, hb⟩ := hg.1 m hm
              refine ⟨ha, hb, ?_⟩
              intro htop
              subst htop
              have hsing := hg.2.1 hm
              injection hsing with h1 h2
              cases h2
            · exact hg.2.2
    | cons current queue' =>
      unfold ru_loop at h
      have hqtail : ∀ e ∈ queue', isAtom e = true := fun e he =>
        hq e (List.mem_cons_of_mem _ he)
      have hcur : isAtom current = true := hq current (List.mem_cons_self _ _)
      cases heq : equals n current .Bottom with
      | none => rw [heq] at h; cases h
      | some bot =>
        rw [heq] at h
        simp only [Option.bind_eq_bind, Option.some_bind] at h
        cases bot with
        | true =>
          exact IH queue' unique res hqtail hg h l hres
        | false =>
          simp only [Bool.false_eq_true, if_false] at h
          have hcurb : current ≠ .Bottom := by
            intro hc; subst hc; exact equals_bottom_ne_false n heq
          cases hab : ru_absorb n current unique with
          | none => rw [hab] at h; cases h
          | some p =>
            rw [hab] at h
            simp only [Option.bind_eq_bind, Option.some_bind] at h
            obtain ⟨hsub, hinv⟩ := ru_absorb_inv unique n current p.1 p.2 hab
            have hkg : ru_good p.1 := ru_good_sublist hsub hg
            cases hab2 : p.2 with
            | true =>
              rw [hab2] at h
              exact IH queue' p.1 res hqtail hkg h l hres
            | false =>
              rw [hab2] at h
              simp only [Bool.false_eq_true, if_false] at h
              obtain ⟨habs_all, hkept_not⟩ := hinv hab2
              cases hsc : ru_scan n current p.1.reverse with
              | none => rw [hsc] at h; cases h
              | some sc =>
                rw [hsc] at h
                cases sc with
                | some pr =>
                  obtain ⟨hsubr, u, hu, k, hk⟩ :=
                    ru_scan_some_inv _ n current pr.1 pr.2 hsc
                  have humem : u ∈ p.1 := List.mem_reverse.mp hu
                  have hmatom : isAtom pr.2 = true :=
                    direct_union_atom k current u pr.2 hcur (hkg.1 u humem).1 hk
                  have hq2 : ∀ e ∈ queue' ++ [pr.2], isAtom e = true := by
                    intro e he
                    rcases List.mem_append.mp he with he | he
                    · exact hqtail e he
                    · rcases List.mem_singleton.mp he with rfl
                      exact hmatom
                  have hrg : ru_good pr.1.reverse := by
                    apply ru_good_sublist _ hkg
                    have hs2 := hsubr.reverse
                    rwa [List.reverse_reverse] at hs2
                  exact IH _ _ res hq2 hrg h l hres
                | none =>
                  have hscn := ru_scan_none_inv _ n current hsc
                  have hgood2 : ru_good (p.1 ++ [current]) := by
                    refine ⟨?_, ?_, ?_⟩
                    · intro m hm
                      rcases List.mem_append.mp hm with hm | hm
                      · exact hkg.1 m hm
                      · rcases List.mem_singleton.mp hm with rfl
                        exact ⟨hcur, hcurb⟩
                    · intro htop
                      rcases List.mem_append.mp htop with htop | htop
                      · exfalso
                        obtain ⟨k', hk'⟩ := habs_all .Top (hsub.subset htop)
                        exact Bool.noConfusion (super_of_top_some k' current false hk')
                      · have hct : Constraint.Top = current :=
                          List.mem_singleton.mp htop
                        subst hct
                        have hkept_nil : p.1 = [] := by
                          cases hke : p.1 with
                          | nil => rfl
                          | cons z zs =>
                            exfalso
                            obtain ⟨k', hk'⟩ :=
                              hkept_not z (hke ▸ List.mem_cons_self z zs)
                            exact Bool.noConfusion (super_of_top_some k' z false hk')
                        rw [hkept_nil]
                        rfl
                    · rw [List.pairwise_append]
                      refine ⟨hkg.2.2, List.pairwise_singleton _ _, ?_⟩
                      intro x hx y hy
                      rcases List.mem_singleton.mp hy with rfl
                      exact ⟨habs_all x (hsub.subset hx), hkept_not x hx,
                        hscn x (List.mem_reverse.mpr hx)⟩
                  exact IH queue' (p.1 ++ [current]) res hqtail hgood2 h l hres

/-- C3 (amended): for input lists whose elements are all atomic (neither
`Union` nor `Difference`), every `Union` returned by `make_union` contains
only atomic members, none of which is `Bottom` or `Top` (hence no nested
`Union`), and the members are pairwise irredundant: neither subsumes the
other under `super_of`, and `direct_union` cannot merge them. -/
theorem c3_make_union_reduced (n : Nat) (es l : List Constraint)
    (hatoms : ∀ e ∈ es, isAtom e = true)
    (h : make_union n es = some (.Union l)) :
    (∀ m ∈ l, isAtom m = true ∧ m ≠ .Bottom ∧ m ≠ .Top) ∧
    List.Pairwise ru_rel l := by
  cases n with
  | zero => exact Option.noConfusion h
  | succ n =>
    cases es with
    | nil =>
      have h2 : Constraint.Bottom = Constraint.Union l := Option.some.inj h
      exact Constraint.noConfusion h2
    | cons x xs =>
      cases xs with
      | nil =>
        have h2 : x = Constraint.Union l := Option.some.inj h
        have hax := hatoms x (List.mem_cons_self _ _)
        rw [h2] at hax
        exact Bool.noConfusion hax
      | cons y ys =>
        exact ru_loop_inv n (x :: y :: ys) [] (.Union l) hatoms ru_good_nil h l rfl

/-- Witness for C3: `make_union` on the atoms `[1, "a"]` at fuel 16 returns
a reduced `Union`. -/
theorem c3_witness :
    (∀ e ∈ [Constraint.LiteralInt 1, Constraint.LiteralString "a"],
      isAtom e = true) ∧
    make_union 16 [Constraint.LiteralInt 1, Constraint.LiteralString "a"] =
      some (.Union [Constraint.LiteralInt 1, Constraint.LiteralString "a"]) ∧
    ((∀ m ∈ [Constraint.LiteralInt 1, Constraint.LiteralString "a"],
        isAtom m = true ∧ m ≠ Constraint.Bottom ∧ m ≠ Constraint.Top) ∧
      List.Pairwise ru_rel [Constraint.LiteralInt 1, Constraint.LiteralString "a"]) :=
  ⟨by decide, by rfl,
    c3_make_union_reduced 16
      [Constraint.LiteralInt 1, Constraint.LiteralString "a"]
      [Constraint.LiteralInt 1, Constraint.LiteralString "a"]
      (by decide) (by rfl)⟩

/- ...........................................................................
Recursive constraint graph layer.

Modelled from the spec: the graph layer (spec sections 3.3 and 4.C) is
absent from the sources under src/, so the definitions below follow the
spec text.  A node is `T`, `F`, `Leaf(atomic)`, `Enum(list)`,
`Pair(a, b)` or `Def(name)`; the `Leaf` payload is abstracted to an
`Int`, since the subsumption rules use nothing about the payload except
its decidable equality.  A graph is a finite association list from names
to nodes, and a graph constraint is a graph with an entry name.
Subsumption carries an assumption set of node pairs; following spec
section 4.C, the assumption-set check comes first, `Def` resolution
records the pair in the assumption set before resolving the name in its
own graph and takes precedence over the shape rules (the recursive
schema examples of the spec need this), and a lookup miss is a usage
fault, reported as `false`.  Removal of the pair from the assumption set
on return is implicit in the functional style: the extended set is only
ever passed downward.  `gsF` is fuelled; `none` means the fuel ran out,
and claim C10 is that some fuel always suffices.
........................................................................... -/

inductive Node where
  | T : Node
  | F : Node
  | Leaf : Int → Node
  | Enum : List Node → Node
  | Pair : Node → Node → Node
  | Def : String → Node

/-- A constraint graph: a finite map from names to nodes. -/
abbrev Graph := List (String × Node)

/-- A graph constraint: a graph together with its entry name. -/
structure GraphConstraint where
  graph : Graph
  entry : String

mutual

/-- Structural equality of graph nodes (the assumption set is keyed by
pairs of nodes, and `Leaf(l1) ⊇ Leaf(l2)` iff the payloads are equal). -/
def nodeEq : Node → Node → Bool
  | .T, .T => true
  | .F, .F => true
  | .Leaf x, .Leaf y => x == y
  | .Enum xs, .Enum ys => nodeEqL xs ys
  | .Pair x1 x2, .Pair y1 y2 => nodeEq x1 y1 && nodeEq x2 y2
  | .Def n1, .Def n2 => n1 == n2
  | _, _ => false

def nodeEqL : List Node → List Node → Bool
  | [], [] => true
  | x :: xs, y :: ys => nodeEq x y && nodeEqL xs ys
  | _, _ => false

end

/-- Membership of a node pair in the assumption set. -/
def pairMem (p : Node × Node) : List (Node × Node) → Bool
  | [] => false
  | q :: rest => (nodeEq p.1 q.1 && nodeEq p.2 q.2) || pairMem p rest

/-- Graph lookup by name. -/
def glookup : Graph → String → Option Node
  | [], _ => none
  | (k, v) :: rest, n => cond (k == n) (some v) (glookup rest n)

/-- One step of the coinductive subsumption of spec section 4.C, with the
recursive occurrences abstracted as `rec`: assumption-set hit, `Def`
resolution in the owning graph (recording the pair first), the `T`/`F`
rules, `Leaf` equality, the three `Enum` rules, componentwise `Pair`,
and `false` for every other shape pair. -/
def gsStep (rec : Graph → Graph → Node → Node → List (Node × Node) → Option Bool)
    (ga gb : Graph) (a b : Node) (assum : List (Node × Node)) : Option Bool :=
  cond (pairMem (a, b) assum) (some true)
    (match a, b with
     | .Def na, bb =>
       Option.elim (glookup ga na) (some false)
         (fun nd => rec ga gb nd bb ((Node.Def na, bb) :: assum))
     | aa, .Def nb =>
       Option.elim (glookup gb nb) (some false)
         (fun nd => rec ga gb aa nd ((aa, Node.Def nb) :: assum))
     | .T, _ => some true
     | _, .F => some true
     | .F, _ => some false
     | _, .T => some false
     | .Leaf l1, .Leaf l2 => some (l1 == l2)
     | .Enum xs, .Enum bs =>
       oall (fun b2 => oany (fun a2 => rec ga gb a2 b2 assum) xs) bs
     | aa, .Enum bs => oall (fun b2 => rec ga gb aa b2 assum) bs
     | .Enum xs, bb => oany (fun a2 => rec ga gb a2 bb assum) xs
     | .Pair a1 a2, .Pair b1 b2 =>
       (rec ga gb a1 b1 assum).bind
         (fun r1 => cond r1 (rec ga gb a2 b2 assum) (some false))
     | _, _ => some false)

/-- The coinductive graph subsumption of spec section 4.C, fuelled. -/
def gsF : Nat → Graph → Graph → Node → Node → List (Node × Node) → Option Bool
  | 0, _, _, _, _, _ => none
  | n + 1, ga, gb, a, b, assum =>
    gsStep (fun ga gb a b assum => gsF n ga gb a b assum) ga gb a b assum

/-- Graph subsumption between two graph constraints: the initial call of
spec section 4.C at `(entry_a, entry_b, ∅)`, each entry wrapped as a
`Def` so that it resolves in its own graph. -/
def graph_super_of (n : Nat) (A B : GraphConstraint) : Option Bool :=
  gsF n A.graph B.graph (.Def A.entry) (.Def B.entry) []

mutual

/-- All structural subnodes of a node, including the node itself.  `Def`
nodes are their own only subnode; what they resolve to is accounted for
by `graphAll`. -/
def subnodes : Node → List Node
  | .Enum ns => .Enum ns :: subnodesL ns
  | .Pair x y => .Pair x y :: (subnodes x ++ subnodes y)
  | n => [n]

def subnodesL : List Node → List Node
  | [] => []
  | x :: xs => subnodes x ++ subnodesL xs

end

/-- All subnodes of all nodes stored in a graph. -/
def graphAll (g : Graph) : List Node :=
  (g.map (fun p => subnodes p.2)).flatten

/-- Every node that the subsumption recursion can reach on one side:
the subnodes of the root plus everything stored in the graph. -/
def graphNodes (g : Graph) (root : Node) : List Node :=
  subnodes root ++ graphAll g

theorem node_sizeOf_pos (a : Node) : 0 < sizeOf a := by
  cases a <;> simp

theorem nodeEq_iff_aux : ∀ N : Nat,
    (∀ a : Node, sizeOf a ≤ N → ∀ b : Node, (nodeEq a b = true ↔ a = b)) ∧
    (∀ xs : List Node, sizeOf xs ≤ N → ∀ ys : List Node,
      (nodeEqL xs ys = true ↔ xs = ys)) := by
  intro N
  induction N with
  | zero =>
    constructor
    · intro a ha
      exact absurd ha (Nat.not_le.mpr (node_sizeOf_pos a))
    · intro xs hxs
      have hpos : 0 < sizeOf xs := by cases xs <;> simp
      exact absurd hxs (Nat.not_le.mpr hpos)
  | succ N ihN =>
    obtain ⟨ihNode, ihList⟩ := ihN
    constructor
    · intro a ha b
      cases a <;> cases b <;>
        first
        | (simp [nodeEq]; done)
        | (rename_i xs ys
           have hsz : sizeOf xs ≤ N := by
             have : sizeOf (Node.Enum xs) ≤ N + 1 := ha
             simp only [Node.Enum.sizeOf_spec] at this
             omega
           rw [show nodeEq (.Enum xs) (.Enum ys) = nodeEqL xs ys from rfl,
             ihList xs hsz ys, Node.Enum.injEq])
        | (rename_i x1 x2 y1 y2
           have hs1 : sizeOf x1 ≤ N := by
             have : sizeOf (Node.Pair x1 x2) ≤ N + 1 := ha
             simp only [Node.Pair.sizeOf_spec] at this
             omega
           have hs2 : sizeOf x2 ≤ N := by
             have : sizeOf (Node.Pair x1 x2) ≤ N + 1 := ha
             simp only [Node.Pair.sizeOf_spec] at this
             omega
           rw [show nodeEq (.Pair x1 x2) (.Pair y1 y2) =
               (nodeEq x1 y1 && nodeEq x2 y2) from rfl,
             Bool.and_eq_true, ihNode x1 hs1 y1, ihNode x2 hs2 y2,
             Node.Pair.injEq])
    · intro xs hxs ys
      cases xs with
      | nil => cases ys <;> simp [nodeEqL]
      | cons x xt =>
        cases ys with
        | nil => simp [nodeEqL]
        | cons y yt =>
          have hs1 : sizeOf x ≤ N := by
            have : sizeOf (x :: xt) ≤ N + 1 := hxs
            simp only [List.cons.sizeOf_spec] at this
            omega
          have hs2 : sizeOf xt ≤ N := by
            have : sizeOf (x :: xt) ≤ N + 1 := hxs
            simp only [List.cons.sizeOf_spec] at this
            omega
          rw [show nodeEqL (x :: xt) (y :: yt) = (nodeEq x y && nodeEqL xt yt) from rfl,
            Bool.and_eq_true, ihNode x hs1 y, ihList xt hs2 yt, List.cons.injEq]

theorem nodeEq_iff (a b : Node) : nodeEq a b = true ↔ a = b :=
  (nodeEq_iff_aux (sizeOf a)).1 a (Nat.le_refl _) b

instance : DecidableEq Node :=
  fun a b => decidable_of_iff (nodeEq a b = true) (nodeEq_iff a b)

theorem pairMem_iff (p : Node × Node) : ∀ Γ : List (Node × Node),
    (pairMem p Γ = true ↔ p ∈ Γ) := by
  intro Γ
  induction Γ with
  | nil => simp [pairMem]
  | cons q rest ih =>
    rw [show pairMem p (q :: rest) =
        ((nodeEq p.1 q.1 && nodeEq p.2 q.2) || pairMem p rest) from rfl]
    simp only [Bool.or_eq_true, Bool.and_eq_true, ih, List.mem_cons,
      nodeEq_iff]
    constructor
    · rintro (⟨h1, h2⟩ | h)
      · exact Or.inl (Prod.ext h1 h2)
      · exact Or.inr h
    · rintro (rfl | h)
      · exact Or.inl ⟨rfl, rfl⟩
      · exact Or.inr h

/-- The finite universe of node pairs the subsumption recursion between
`a` (in `ga`) and `b` (in `gb`) can ever visit. -/
def pairUniv (ga gb : Graph) (a b : Node) : Finset (Node × Node) :=
  (graphNodes ga a).toFinset ×ˢ (graphNodes gb b).toFinset

/-- Termination measure of the assumption-set recursion: the number of
reachable node pairs not yet assumed. -/
def gsMeasure (ga gb : Graph) (a b : Node) (assum : List (Node × Node)) : Nat :=
  (pairUniv ga gb a b \ assum.toFinset).card

theorem self_mem_subnodes (a : Node) : a ∈ subnodes a := by
  cases a <;> exact List.mem_cons_self _ _

theorem self_mem_graphNodes (g : Graph) (a : Node) : a ∈ graphNodes g a :=
  List.mem_append_left _ (self_mem_subnodes a)

theorem subnodesL_of_mem {m : Node} : ∀ {ns : List Node}, m ∈ ns →
    subnodes m ⊆ subnodesL ns := by
  intro ns
  induction ns with
  | nil => intro h; cases h
  | cons x xs ih =>
    intro h y hy
    rw [show subnodesL (x :: xs) = subnodes x ++ subnodesL xs from rfl]
    rcases List.mem_cons.mp h with rfl | h
    · exact List.mem_append_left _ hy
    · exact List.mem_append_right _ (ih h hy)

theorem sub_enum {m : Node} {ns : List Node} (h : m ∈ ns) :
    subnodes m ⊆ subnodes (.Enum ns) := fun y hy =>
  List.mem_cons_of_mem _ (subnodesL_of_mem h hy)

theorem sub_pair_left (x y : Node) : subnodes x ⊆ subnodes (.Pair x y) :=
  fun z hz => List.mem_cons_of_mem _ (List.mem_append_left _ hz)

theorem sub_pair_right (x y : Node) : subnodes y ⊆ subnodes (.Pair x y) :=
  fun z hz => List.mem_cons_of_mem _ (List.mem_append_right _ hz)

theorem gn_mono (g : Graph) {a' a : Node} (h : subnodes a' ⊆ subnodes a) :
    graphNodes g a' ⊆ graphNodes g a := by
  intro x hx
  rcases List.mem_append.mp hx with hx | hx
  · exact List.mem_append_left _ (h hx)
  · exact List.mem_append_right _ hx

theorem glookup_subnodes : ∀ (g : Graph) (na : String) (nd : Node),
    glookup g na = some nd → subnodes nd ⊆ graphAll g := by
  intro g
  induction g with
  | nil => intro na nd h; cases h
  | cons p rest ih =>
    obtain ⟨k, v⟩ := p
    intro na nd h
    have e : glookup ((k, v) :: rest) na =
        cond (k == na) (some v) (glookup rest na) := rfl
    rw [e] at h
    have e2 : graphAll ((k, v) :: rest) = subnodes v ++ graphAll rest := rfl
    cases hk : (k == na) with
    | true =>
      rw [hk, Bool.cond_true] at h
      obtain rfl := Option.some.inj h
      intro x hx
      rw [e2]
      exact List.mem_append_left _ hx
    | false =>
      rw [hk, Bool.cond_false] at h
      intro x hx
      rw [e2]
      exact List.mem_append_right _ (ih na nd h hx)

theorem gn_of_graphAll {g : Graph} {x : Node} (h : subnodes x ⊆ graphAll g)
    (a : Node) : graphNodes g x ⊆ graphNodes g a := by
  intro y hy
  rcases List.mem_append.mp hy with hy | hy
  · exact List.mem_append_right _ (h hy)
  · exact List.mem_append_right _ hy

theorem pairUniv_mono {ga gb : Graph} {a b a' b' : Node}
    (hl : graphNodes ga a' ⊆ graphNodes ga a)
    (hr : graphNodes gb b' ⊆ graphNodes gb b) :
    pairUniv ga gb a' b' ⊆ pairUniv ga gb a b := by
  apply Finset.product_subset_product
  · intro x hx
    rw [List.mem_toFinset] at hx ⊢
    exact hl hx
  · intro x hx
    rw [List.mem_toFinset] at hx ⊢
    exact hr hx

theorem self_mem_pairUniv (ga gb : Graph) (a b : Node) :
    (a, b) ∈ pairUniv ga gb a b :=
  Finset.mem_product.mpr
    ⟨List.mem_toFinset.mpr (self_mem_graphNodes ga a),
     List.mem_toFinset.mpr (self_mem_graphNodes gb b)⟩

theorem gsMeasure_le {ga gb : Graph} {a b a' b' : Node}
    (Γ : List (Node × Node))
    (hl : graphNodes ga a' ⊆ graphNodes ga a)
    (hr : graphNodes gb b' ⊆ graphNodes gb b) :
    gsMeasure ga gb a' b' Γ ≤ gsMeasure ga gb a b Γ :=
  Finset.card_le_card
    (Finset.sdiff_subset_sdiff (pairUniv_mono hl hr) (Finset.Subset.refl _))

theorem gsMeasure_lt {ga gb : Graph} {a b a' b' : Node}
    {Γ : List (Node × Node)} (hmem : pairMem (a, b) Γ = false)
    (hl : graphNodes ga a' ⊆ graphNodes ga a)
    (hr : graphNodes gb b' ⊆ graphNodes gb b) :
    gsMeasure ga gb a' b' ((a, b) :: Γ) < gsMeasure ga gb a b Γ := by
  have habΓ : (a, b) ∉ Γ := by
    intro hc
    have := (pairMem_iff (a, b) Γ).mpr hc
    rw [hmem] at this
    exact Bool.noConfusion this
  have hss : pairUniv ga gb a' b' \ ((a, b) :: Γ).toFinset ⊆
      pairUniv ga gb a b \ Γ.toFinset := by
    intro x hx
    obtain ⟨hx1, hx2⟩ := Finset.mem_sdiff.mp hx
    refine Finset.mem_sdiff.mpr ⟨pairUniv_mono hl hr hx1, fun hc => hx2 ?_⟩
    rw [List.toFinset_cons]
    exact Finset.mem_insert_of_mem hc
  apply Finset.card_lt_card
  refine (Finset.ssubset_iff_of_subset hss).mpr ⟨(a, b), ?_, ?_⟩
  · exact Finset.mem_sdiff.mpr ⟨self_mem_pairUniv ga gb a b,
      fun hc => habΓ (List.mem_toFinset.mp hc)⟩
  · intro hc
    have := (Finset.mem_sdiff.mp hc).2
    rw [List.toFinset_cons] at this
    exact this (Finset.mem_insert_self _ _)

theorem oall_mono_some {α : Type} (f g : α → Option Bool) : ∀ (l : List α),
    (∀ x ∈ l, ∀ r, f x = some r → g x = some r) →
    ∀ r, oall f l = some r → oall g l = some r := by
  intro l
  induction l with
  | nil => intro _ r h; exact h
  | cons x xs ih =>
    intro hfg r h
    simp only [oall, Option.bind_eq_bind] at h ⊢
    cases hx : f x with
    | none => rw [hx] at h; exact Option.noConfusion h
    | some b =>
      rw [hx] at h
      rw [hfg x (List.mem_cons_self x xs) b hx]
      simp only [Option.some_bind] at h ⊢
      cases b with
      | true => exact ih (fun y hy => hfg y (List.mem_cons_of_mem x hy)) r h
      | false => exact h

theorem oany_mono_some {α : Type} (f g : α → Option Bool) : ∀ (l : List α),
    (∀ x ∈ l, ∀ r, f x = some r → g x = some r) →
    ∀ r, oany f l = some r → oany g l = some r := by
  intro l
  induction l with
  | nil => intro _ r h; exact h
  | cons x xs ih =>
    intro hfg r h
    simp only [oany, Option.bind_eq_bind] at h ⊢
    cases hx : f x with
    | none => rw [hx] at h; exact Option.noConfusion h
    | some b =>
      rw [hx] at h
      rw [hfg x (List.mem_cons_self x xs) b hx]
      simp only [Option.some_bind] at h ⊢
      cases b with
      | true => exact h
      | false => exact ih (fun y hy => hfg y (List.mem_cons_of_mem x hy)) r h

theorem oall_ne_none {α : Type} (f : α → Option Bool) : ∀ (l : List α),
    (∀ x ∈ l, f x ≠ none) → oall f l ≠ none := by
  intro l
  induction l with
  | nil => intro _ hc; exact Option.noConfusion hc
  | cons x xs ih =>
    intro h
    simp only [oall, Option.bind_eq_bind]
    cases hx : f x with
    | none => exact absurd hx (h x (List.mem_cons_self x xs))
    | some b =>
      simp only [Option.some_bind]
      cases b with
      | true => exact ih (fun y hy => h y (List.mem_cons_of_mem x hy))
      | false => intro hc; exact Option.noConfusion hc

theorem oany_ne_none {α : Type} (f : α → Option Bool) : ∀ (l : List α),
    (∀ x ∈ l, f x ≠ none) → oany f l ≠ none := by
  intro l
  induction l with
  | nil => intro _ hc; exact Option.noConfusion hc
  | cons x xs ih =>
    intro h
    simp only [oany, Option.bind_eq_bind]
    cases hx : f x with
    | none => exact absurd hx (h x (List.mem_cons_self x xs))
    | some b =>
      simp only [Option.some_bind]
      cases b with
      | true => intro hc; exact Option.noConfusion hc
      | false => exact ih (fun y hy => h y (List.mem_cons_of_mem x hy))

theorem gs_mono_defL (rec1 rec2 : Graph → Graph → Node → Node →
      List (Node × Node) → Option Bool)
    (hrec : ∀ ga gb a b Γ r, rec1 ga gb a b Γ = some r →
      rec2 ga gb a b Γ = some r)
    (ga gb : Graph) (na : String) (bb : Node) (Γ : List (Node × Node))
    (r : Bool)
    (h : Option.elim (glookup ga na) (some false)
        (fun nd => rec1 ga gb nd bb ((Node.Def na, bb) :: Γ)) = some r) :
    Option.elim (glookup ga na) (some false)
        (fun nd => rec2 ga gb nd bb ((Node.Def na, bb) :: Γ)) = some r := by
  cases hlk : glookup ga na with
  | none => rw [hlk] at h; exact h
  | some nd => rw [hlk] at h; exact hrec ga gb nd bb _ r h

theorem gs_mono_defR (rec1 rec2 : Graph → Graph → Node → Node →
      List (Node × Node) → Option Bool)
    (hrec : ∀ ga gb a b Γ r, rec1 ga gb a b Γ = some r →
      rec2 ga gb a b Γ = some r)
    (ga gb : Graph) (aa : Node) (nb : String) (Γ : List (Node × Node))
    (r : Bool)
    (h : Option.elim (glookup gb nb) (some false)
        (fun nd => rec1 ga gb aa nd ((aa, Node.Def nb) :: Γ)) = some r) :
    Option.elim (glookup gb nb) (some false)
        (fun nd => rec2 ga gb aa nd ((aa, Node.Def nb) :: Γ)) = some r := by
  cases hlk : glookup gb nb with
  | none => rw [hlk] at h; exact h
  | some nd => rw [hlk] at h; exact hrec ga gb aa nd _ r h

theorem gs_mono_enum2 (rec1 rec2 : Graph → Graph → Node → Node →
      List (Node × Node) → Option Bool)
    (hrec : ∀ ga gb a b Γ r, rec1 ga gb a b Γ = some r →
      rec2 ga gb a b Γ = some r)
    (ga gb : Graph) (xs bs : List Node) (Γ : List (Node × Node)) (r : Bool)
    (h : oall (fun b2 => oany (fun a2 => rec1 ga gb a2 b2 Γ) xs) bs = some r) :
    oall (fun b2 => oany (fun a2 => rec2 ga gb a2 b2 Γ) xs) bs = some r :=
  oall_mono_some _ _ bs
    (fun b2 _ r2 h2 => oany_mono_some _ _ xs
      (fun a2 _ r3 h3 => hrec ga gb a2 b2 Γ r3 h3) r2 h2) r h

theorem gs_mono_pair (rec1 rec2 : Graph → Graph → Node → Node →
      List (Node × Node) → Option Bool)
    (hrec : ∀ ga gb a b Γ r, rec1 ga gb a b Γ = some r →
      rec2 ga gb a b Γ = some r)
    (ga gb : Graph) (a1 a2 b1 b2 : Node) (Γ : List (Node × Node)) (r : Bool)
    (h : (rec1 ga gb a1 b1 Γ).bind
        (fun r1 => cond r1 (rec1 ga gb a2 b2 Γ) (some false)) = some r) :
    (rec2 ga gb a1 b1 Γ).bind
        (fun r1 => cond r1 (rec2 ga gb a2 b2 Γ) (some false)) = some r := by
  cases h1 : rec1 ga gb a1 b1 Γ with
  | none => rw [h1] at h; exact Option.noConfusion h
  | some r1 =>
    rw [h1] at h
    rw [hrec ga gb a1 b1 Γ r1 h1]
    simp only [Option.some_bind] at h ⊢
    cases r1 with
    | true => exact hrec ga gb a2 b2 Γ r h
    | false => exact h

theorem gsStep_mono (rec1 rec2 : Graph → Graph → Node → Node →
      List (Node × Node) → Option Bool)
    (hrec : ∀ ga gb a b Γ r, rec1 ga gb a b Γ = some r →
      rec2 ga gb a b Γ = some r) :
    ∀ ga gb a b Γ r, gsStep rec1 ga gb a b Γ = some r →
      gsStep rec2 ga gb a b Γ = some r := by
  intro ga gb a b Γ r h
  unfold gsStep at h ⊢
  cases hmem : pairMem (a, b) Γ with
  | true => rw [hmem] at h; exact h
  | false =>
    rw [hmem, Bool.cond_false] at h
    rw [Bool.cond_false]
    cases a <;> cases b <;>
      first
      | exact h
      | exact gs_mono_defL rec1 rec2 hrec ga gb _ _ Γ r h
      | exact gs_mono_defR rec1 rec2 hrec ga gb _ _ Γ r h
      | exact gs_mono_enum2 rec1 rec2 hrec ga gb _ _ Γ r h
      | exact oall_mono_some _ _ _ (fun b2 _ r2 h2 =>
          hrec ga gb _ b2 Γ r2 h2) r h
      | exact oany_mono_some _ _ _ (fun a2 _ r2 h2 =>
          hrec ga gb a2 _ Γ r2 h2) r h
      | exact gs_mono_pair rec1 rec2 hrec ga gb _ _ _ _ Γ r h

theorem gsF_mono : ∀ (n : Nat) (ga gb : Graph) (a b : Node)
    (Γ : List (Node × Node)) (r : Bool),
    gsF n ga gb a b Γ = some r → gsF (n + 1) ga gb a b Γ = some r := by
  intro n
  induction n with
  | zero => intro ga gb a b Γ r h; exact Option.noConfusion h
  | succ n IH =>
    intro ga gb a b Γ r h
    have e1 : gsF (n + 1) ga gb a b Γ =
        gsStep (fun ga gb a b s => gsF n ga gb a b s) ga gb a b Γ := rfl
    have e2 : gsF (n + 1 + 1) ga gb a b Γ =
        gsStep (fun ga gb a b s => gsF (n + 1) ga gb a b s) ga gb a b Γ := rfl
    rw [e1] at h
    rw [e2]
    exact gsStep_mono _ _ (fun ga gb a b Γ r hh => IH ga gb a b Γ r hh)
      ga gb a b Γ r h

theorem gsF_mono_le {n m : Nat} (hnm : n ≤ m) (ga gb : Graph) (a b : Node)
    (Γ : List (Node × Node)) (r : Bool) (h : gsF n ga gb a b Γ = some r) :
    gsF m ga gb a b Γ = some r := by
  induction hnm with
  | refl => exact h
  | step _ ih => exact gsF_mono _ ga gb a b Γ r ih

theorem gsF_mem_true (ga gb : Graph) (a b : Node) (Γ : List (Node × Node))
    (hmem : pairMem (a, b) Γ = true) : gsF 1 ga gb a b Γ = some true := by
  have e : gsF 1 ga gb a b Γ =
      gsStep (fun ga gb a b s => gsF 0 ga gb a b s) ga gb a b Γ := rfl
  rw [e]
  unfold gsStep
  rw [hmem]
  rfl

theorem gsF_one_ne_none_of_const (ga gb : Graph) (a b : Node)
    (Γ : List (Node × Node)) (c : Bool)
    (e : gsF 1 ga gb a b Γ = cond (pairMem (a, b) Γ) (some true) (some c)) :
    gsF 1 ga gb a b Γ ≠ none := by
  rw [e]
  cases pairMem (a, b) Γ <;> intro hc <;> exact Option.noConfusion hc

theorem node_size_enum_mem {m : Node} {ns : List Node} (h : m ∈ ns) :
    sizeOf m < sizeOf (Node.Enum ns) := by
  have := List.sizeOf_lt_of_mem h
  simp only [Node.Enum.sizeOf_spec]
  omega

theorem gs_tot_defL (K : Nat) (ga gb : Graph) (Γ : List (Node × Node))
    (na : String) (bb : Node)
    (IHK : ∀ (ga gb : Graph) (Γ : List (Node × Node)) (a b : Node),
      gsMeasure ga gb a b Γ ≤ K → ∃ n, gsF n ga gb a b Γ ≠ none)
    (hmem : pairMem (.Def na, bb) Γ = false)
    (hK : gsMeasure ga gb (.Def na) bb Γ ≤ K + 1)
    (e : ∀ k : Nat, gsF (k + 1) ga gb (.Def na) bb Γ =
      cond (pairMem (Node.Def na, bb) Γ) (some true)
        (Option.elim (glookup ga na) (some false)
          (fun nd => gsF k ga gb nd bb ((Node.Def na, bb) :: Γ)))) :
    ∃ n, gsF n ga gb (.Def na) bb Γ ≠ none := by
  cases hlk : glookup ga na with
  | none =>
    refine ⟨0 + 1, ?_⟩
    rw [e 0, hmem, Bool.cond_false, hlk]
    intro hc; exact Option.noConfusion hc
  | some nd =>
    have hlt : gsMeasure ga gb nd bb ((Node.Def na, bb) :: Γ) <
        gsMeasure ga gb (.Def na) bb Γ :=
      gsMeasure_lt hmem
        (gn_of_graphAll (glookup_subnodes ga na nd hlk) _)
        (fun x hx => hx)
    obtain ⟨n0, hn⟩ := IHK ga gb ((Node.Def na, bb) :: Γ) nd bb
      (Nat.lt_succ_iff.mp (Nat.lt_of_lt_of_le hlt hK))
    refine ⟨n0 + 1, ?_⟩
    rw [e n0, hmem, Bool.cond_false, hlk]
    exact hn

theorem gs_tot_defR (K : Nat) (ga gb : Graph) (Γ : List (Node × Node))
    (aa : Node) (nb : String)
    (IHK : ∀ (ga gb : Graph) (Γ : List (Node × Node)) (a b : Node),
      gsMeasure ga gb a b Γ ≤ K → ∃ n, gsF n ga gb a b Γ ≠ none)
    (hmem : pairMem (aa, .Def nb) Γ = false)
    (hK : gsMeasure ga gb aa (.Def nb) Γ ≤ K + 1)
    (e : ∀ k : Nat, gsF (k + 1) ga gb aa (.Def nb) Γ =
      cond (pairMem (aa, Node.Def nb) Γ) (some true)
        (Option.elim (glookup gb nb) (some false)
          (fun nd => gsF k ga gb aa nd ((aa, Node.Def nb) :: Γ)))) :
    ∃ n, gsF n ga gb aa (.Def nb) Γ ≠ none := by
  cases hlk : glookup gb nb with
  | none =>
    refine ⟨0 + 1, ?_⟩
    rw [e 0, hmem, Bool.cond_false, hlk]
    intro hc; exact Option.noConfusion hc
  | some nd =>
    have hlt : gsMeasure ga gb aa nd ((aa, Node.Def nb) :: Γ) <
        gsMeasure ga gb aa (.Def nb) Γ :=
      gsMeasure_lt hmem (fun x hx => hx)
        (gn_of_graphAll (glookup_subnodes gb nb nd hlk) _)
    obtain ⟨n0, hn⟩ := IHK ga gb ((aa, Node.Def nb) :: Γ) aa nd
      (Nat.lt_succ_iff.mp (Nat.lt_of_lt_of_le hlt hK))
    refine ⟨n0 + 1, ?_⟩
    rw [e n0, hmem, Bool.cond_false, hlk]
    exact hn

theorem gs_tot_enum2 (K M : Nat) (ga gb : Graph) (Γ : List (Node × Node))
    (xs bs : List Node)
    (IHM : ∀ a b : Node, gsMeasure ga gb a b Γ ≤ K + 1 →
      sizeOf a + sizeOf b ≤ M → ∃ n, gsF n ga gb a b Γ ≠ none)
    (hmem : pairMem (.Enum xs, .Enum bs) Γ = false)
    (hK : gsMeasure ga gb (.Enum xs) (.Enum bs) Γ ≤ K + 1)
    (hM : sizeOf (Node.Enum xs) + sizeOf (Node.Enum bs) ≤ M + 1)
    (e : ∀ k : Nat, gsF (k + 1) ga gb (.Enum xs) (.Enum bs) Γ =
      cond (pairMem (Node.Enum xs, Node.Enum bs) Γ) (some true)
        (oall (fun b2 => oany (fun a2 => gsF k ga gb a2 b2 Γ) xs) bs)) :
    ∃ n, gsF n ga gb (.Enum xs) (.Enum bs) Γ ≠ none := by
  have hpt : ∀ b2 ∈ bs, ∀ a2 ∈ xs, ∃ n, gsF n ga gb a2 b2 Γ ≠ none := by
    intro b2 hb2 a2 ha2
    apply IHM a2 b2
    · exact Nat.le_trans (gsMeasure_le Γ (gn_mono ga (sub_enum ha2))
        (gn_mono gb (sub_enum hb2))) hK
    · have h1 : sizeOf a2 < sizeOf (Node.Enum xs) := node_size_enum_mem ha2
      have h2 : sizeOf b2 < sizeOf (Node.Enum bs) := node_size_enum_mem hb2
      omega
  have hbt : ∃ n, ∀ b2 ∈ bs,
      oany (fun a2 => gsF n ga gb a2 b2 Γ) xs ≠ none := by
    apply fuel_join bs (fun n b2 => oany (fun a2 => gsF n ga gb a2 b2 Γ) xs ≠ none)
    · intro n m b2 hnm _ hne
      obtain ⟨r, hr⟩ := Option.ne_none_iff_exists'.mp hne
      have hr2 : oany (fun a2 => gsF m ga gb a2 b2 Γ) xs = some r :=
        oany_mono_some _ _ xs
          (fun a2 _ r2 h2 => gsF_mono_le hnm ga gb a2 b2 Γ r2 h2) r hr
      rw [hr2]
      intro hc; exact Option.noConfusion hc
    · intro b2 hb2
      obtain ⟨n0, hn0⟩ := fuel_join xs (fun n a2 => gsF n ga gb a2 b2 Γ ≠ none)
        (fun n m a2 hnm _ hne => by
          obtain ⟨r, hr⟩ := Option.ne_none_iff_exists'.mp hne
          rw [gsF_mono_le hnm ga gb a2 b2 Γ r hr]
          intro hc; exact Option.noConfusion hc)
        (fun a2 ha2 => hpt b2 hb2 a2 ha2)
      exact ⟨n0, oany_ne_none _ xs hn0⟩
  obtain ⟨n0, hn⟩ := hbt
  refine ⟨n0 + 1, ?_⟩
  rw [e n0, hmem, Bool.cond_false]
  exact oall_ne_none _ bs hn

theorem gs_tot_enumR (K M : Nat) (ga gb : Graph) (Γ : List (Node × Node))
    (aa : Node) (bs : List Node)
    (IHM : ∀ a b : Node, gsMeasure ga gb a b Γ ≤ K + 1 →
      sizeOf a + sizeOf b ≤ M → ∃ n, gsF n ga gb a b Γ ≠ none)
    (hmem : pairMem (aa, .Enum bs) Γ = false)
    (hK : gsMeasure ga gb aa (.Enum bs) Γ ≤ K + 1)
    (hM : sizeOf aa + sizeOf (Node.Enum bs) ≤ M + 1)
    (e : ∀ k : Nat, gsF (k + 1) ga gb aa (.Enum bs) Γ =
      cond (pairMem (aa, Node.Enum bs) Γ) (some true)
        (oall (fun b2 => gsF k ga gb aa b2 Γ) bs)) :
    ∃ n, gsF n ga gb aa (.Enum bs) Γ ≠ none := by
  have hbt : ∃ n, ∀ b2 ∈ bs, gsF n ga gb aa b2 Γ ≠ none := by
    apply fuel_join bs (fun n b2 => gsF n ga gb aa b2 Γ ≠ none)
    · intro n m b2 hnm _ hne
      obtain ⟨r, hr⟩ := Option.ne_none_iff_exists'.mp hne
      rw [gsF_mono_le hnm ga gb aa b2 Γ r hr]
      intro hc; exact Option.noConfusion hc
    · intro b2 hb2
      apply IHM aa b2
      · exact Nat.le_trans (gsMeasure_le Γ (fun x hx => hx)
          (gn_mono gb (sub_enum hb2))) hK
      · have h2 : sizeOf b2 < sizeOf (Node.Enum bs) := node_size_enum_mem hb2
        omega
  obtain ⟨n0, hn⟩ := hbt
  refine ⟨n0 + 1, ?_⟩
  rw [e n0, hmem, Bool.cond_false]
  exact oall_ne_none _ bs hn

theorem gs_tot_enumL (K M : Nat) (ga gb : Graph) (Γ : List (Node × Node))
    (xs : List Node) (bb : Node)
    (IHM : ∀ a b : Node, gsMeasure ga gb a b Γ ≤ K + 1 →
      sizeOf a + sizeOf b ≤ M → ∃ n, gsF n ga gb a b Γ ≠ none)
    (hmem : pairMem (.Enum xs, bb) Γ = false)
    (hK : gsMeasure ga gb (.Enum xs) bb Γ ≤ K + 1)
    (hM : sizeOf (Node.Enum xs) + sizeOf bb ≤ M + 1)
    (e : ∀ k : Nat, gsF (k + 1) ga gb (.Enum xs) bb Γ =
      cond (pairMem (Node.Enum xs, bb) Γ) (some true)
        (oany (fun a2 => gsF k ga gb a2 bb Γ) xs)) :
    ∃ n, gsF n ga gb (.Enum xs) bb Γ ≠ none := by
  have hat : ∃ n, ∀ a2 ∈ xs, gsF n ga gb a2 bb Γ ≠ none := by
    apply fuel_join xs (fun n a2 => gsF n ga gb a2 bb Γ ≠ none)
    · intro n m a2 hnm _ hne
      obtain ⟨r, hr⟩ := Option.ne_none_iff_exists'.mp hne
      rw [gsF_mono_le hnm ga gb a2 bb Γ r hr]
      intro hc; exact Option.noConfusion hc
    · intro a2 ha2
      apply IHM a2 bb
      · exact Nat.le_trans (gsMeasure_le Γ (gn_mono ga (sub_enum ha2))
          (fun x hx => hx)) hK
      · have h1 : sizeOf a2 < sizeOf (Node.Enum xs) := node_size_enum_mem ha2
        omega
  obtain ⟨n0, hn⟩ := hat
  refine ⟨n0 + 1, ?_⟩
  rw [e n0, hmem, Bool.cond_false]
  exact oany_ne_none _ xs hn

theorem gs_tot_pair (K M : Nat) (ga gb : Graph) (Γ : List (Node × Node))
    (a1 a2 b1 b2 : Node)
    (IHM : ∀ a b : Node, gsMeasure ga gb a b Γ ≤ K + 1 →
      sizeOf a + sizeOf b ≤ M → ∃ n, gsF n ga gb a b Γ ≠ none)
    (hmem : pairMem (.Pair a1 a2, .Pair b1 b2) Γ = false)
    (hK : gsMeasure ga gb (.Pair a1 a2) (.Pair b1 b2) Γ ≤ K + 1)
    (hM : sizeOf (Node.Pair a1 a2) + sizeOf (Node.Pair b1 b2) ≤ M + 1)
    (e : ∀ k : Nat, gsF (k + 1) ga gb (.Pair a1 a2) (.Pair b1 b2) Γ =
      cond (pairMem (Node.Pair a1 a2, Node.Pair b1 b2) Γ) (some true)
        ((gsF k ga gb a1 b1 Γ).bind
          (fun r1 => cond r1 (gsF k ga gb a2 b2 Γ) (some false)))) :
    ∃ n, gsF n ga gb (.Pair a1 a2) (.Pair b1 b2) Γ ≠ none := by
  have hsz : sizeOf a1 + sizeOf b1 ≤ M ∧ sizeOf a2 + sizeOf b2 ≤ M := by
    simp only [Node.Pair.sizeOf_spec] at hM
    omega
  have h1 : ∃ n, gsF n ga gb a1 b1 Γ ≠ none :=
    IHM a1 b1 (Nat.le_trans (gsMeasure_le Γ (gn_mono ga (sub_pair_left a1 a2))
      (gn_mono gb (sub_pair_left b1 b2))) hK) hsz.1
  have h2 : ∃ n, gsF n ga gb a2 b2 Γ ≠ none :=
    IHM a2 b2 (Nat.le_trans (gsMeasure_le Γ (gn_mono ga (sub_pair_right a1 a2))
      (gn_mono gb (sub_pair_right b1 b2))) hK) hsz.2
  obtain ⟨n1, hn1⟩ := h1
  obtain ⟨n2, hn2⟩ := h2
  obtain ⟨r1, hr1⟩ := Option.ne_none_iff_exists'.mp hn1
  obtain ⟨r2, hr2⟩ := Option.ne_none_iff_exists'.mp hn2
  have hr1m : gsF (max n1 n2) ga gb a1 b1 Γ = some r1 :=
    gsF_mono_le (Nat.le_max_left _ _) ga gb a1 b1 Γ r1 hr1
  have hr2m : gsF (max n1 n2) ga gb a2 b2 Γ = some r2 :=
    gsF_mono_le (Nat.le_max_right _ _) ga gb a2 b2 Γ r2 hr2
  refine ⟨max n1 n2 + 1, ?_⟩
  rw [e (max n1 n2), hmem, Bool.cond_false, hr1m]
  simp only [Option.some_bind]
  cases r1 with
  | true =>
    rw [Bool.cond_true, hr2m]
    intro hc; exact Option.noConfusion hc
  | false =>
    rw [Bool.cond_false]
    intro hc; exact Option.noConfusion hc

theorem gsF_total_aux : ∀ (K : Nat) (ga gb : Graph) (Γ : List (Node × Node))
    (M : Nat) (a b : Node), gsMeasure ga gb a b Γ ≤ K →
    sizeOf a + sizeOf b ≤ M → ∃ n, gsF n ga gb a b Γ ≠ none := by
  intro K
  induction K with
  | zero =>
    intro ga gb Γ M a b hK hM
    have hmem : pairMem (a, b) Γ = true := by
      cases hp : pairMem (a, b) Γ with
      | true => rfl
      | false =>
        exfalso
        have habΓ : (a, b) ∉ Γ.toFinset := by
          rw [List.mem_toFinset]
          intro hc
          have := (pairMem_iff (a, b) Γ).mpr hc
          rw [hp] at this
          exact Bool.noConfusion this
        have hin : (a, b) ∈ pairUniv ga gb a b \ Γ.toFinset :=
          Finset.mem_sdiff.mpr ⟨self_mem_pairUniv ga gb a b, habΓ⟩
        have hpos : 0 < gsMeasure ga gb a b Γ :=
          Finset.card_pos.mpr ⟨(a, b), hin⟩
        omega
    refine ⟨1, ?_⟩
    rw [gsF_mem_true ga gb a b Γ hmem]
    intro hc; exact Option.noConfusion hc
  | succ K IHK =>
    intro ga gb Γ M
    induction M with
    | zero =>
      intro a b _ hM
      have ha := node_sizeOf_pos a
      have hb := node_sizeOf_pos b
      omega
    | succ M IHM =>
      intro a b hK hM
      cases hmem : pairMem (a, b) Γ with
      | true =>
        refine ⟨1, ?_⟩
        rw [gsF_mem_true ga gb a b Γ hmem]
        intro hc; exact Option.noConfusion hc
      | false =>
        have IHK2 : ∀ (ga gb : Graph) (Γ : List (Node × Node)) (a b : Node),
            gsMeasure ga gb a b Γ ≤ K → ∃ n, gsF n ga gb a b Γ ≠ none :=
          fun ga gb Γ a b hm =>
            IHK ga gb Γ (sizeOf a + sizeOf b) a b hm (Nat.le_refl _)
        cases a with
        | T =>
          cases b with
          | Def nb => exact gs_tot_defR K ga gb Γ _ _ IHK2 hmem hK (fun k => rfl)
          | T => exact ⟨1, gsF_one_ne_none_of_const ga gb _ _ Γ _ rfl⟩
          | F => exact ⟨1, gsF_one_ne_none_of_const ga gb _ _ Γ _ rfl⟩
          | Leaf l => exact ⟨1, gsF_one_ne_none_of_const ga gb _ _ Γ _ rfl⟩
          | Enum bs2 => exact ⟨1, gsF_one_ne_none_of_const ga gb _ _ Γ _ rfl⟩
          | Pair b1 b2 => exact ⟨1, gsF_one_ne_none_of_const ga gb _ _ Γ _ rfl⟩
        | F =>
          cases b with
          | Def nb => exact gs_tot_defR K ga gb Γ _ _ IHK2 hmem hK (fun k => rfl)
          | T => exact ⟨1, gsF_one_ne_none_of_const ga gb _ _ Γ _ rfl⟩
          | F => exact ⟨1, gsF_one_ne_none_of_const ga gb _ _ Γ _ rfl⟩
          | Leaf l => exact ⟨1, gsF_one_ne_none_of_const ga gb _ _ Γ _ rfl⟩
          | Enum bs2 => exact ⟨1, gsF_one_ne_none_of_const ga gb _ _ Γ _ rfl⟩
          | Pair b1 b2 => exact ⟨1, gsF_one_ne_none_of_const ga gb _ _ Γ _ rfl⟩
        | Leaf l =>
          cases b with
          | Def nb => exact gs_tot_defR K ga gb Γ _ _ IHK2 hmem hK (fun k => rfl)
          | T => exact ⟨1, gsF_one_ne_none_of_const ga gb _ _ Γ _ rfl⟩
          | F => exact ⟨1, gsF_one_ne_none_of_const ga gb _ _ Γ _ rfl⟩
          | Leaf l2 => exact ⟨1, gsF_one_ne_none_of_const ga gb _ _ Γ _ rfl⟩
          | Enum bs2 => exact gs_tot_enumR K M ga gb Γ _ _ IHM hmem hK hM (fun k => rfl)
          | Pair b1 b2 => exact ⟨1, gsF_one_ne_none_of_const ga gb _ _ Γ _ rfl⟩
        | Enum xs2 =>
          cases b with
          | Def nb => exact gs_tot_defR K ga gb Γ _ _ IHK2 hmem hK (fun k => rfl)
          | T => exact ⟨1, gsF_one_ne_none_of_const ga gb _ _ Γ _ rfl⟩
          | F => exact ⟨1, gsF_one_ne_none_of_const ga gb _ _ Γ _ rfl⟩
          | Leaf l2 => exact gs_tot_enumL K M ga gb Γ _ _ IHM hmem hK hM (fun k => rfl)
          | Enum bs2 => exact gs_tot_enum2 K M ga gb Γ _ _ IHM hmem hK hM (fun k => rfl)
          | Pair b1 b2 => exact gs_tot_enumL K M ga gb Γ _ _ IHM hmem hK hM (fun k => rfl)
        | Pair a1 a2 =>
          cases b with
          | Def nb => exact gs_tot_defR K ga gb Γ _ _ IHK2 hmem hK (fun k => rfl)
          | T => exact ⟨1, gsF_one_ne_none_of_const ga gb _ _ Γ _ rfl⟩
          | F => exact ⟨1, gsF_one_ne_none_of_const ga gb _ _ Γ _ rfl⟩
          | Leaf l2 => exact ⟨1, gsF_one_ne_none_of_const ga gb _ _ Γ _ rfl⟩
          | Enum bs2 => exact gs_tot_enumR K M ga gb Γ _ _ IHM hmem hK hM (fun k => rfl)
          | Pair b1 b2 => exact gs_tot_pair K M ga gb Γ _ _ _ _ IHM hmem hK hM (fun k => rfl)
        | Def na =>
          cases b with
          | T => exact gs_tot_defL K ga gb Γ _ _ IHK2 hmem hK (fun k => rfl)
          | F => exact gs_tot_defL K ga gb Γ _ _ IHK2 hmem hK (fun k => rfl)
          | Leaf l2 => exact gs_tot_defL K ga gb Γ _ _ IHK2 hmem hK (fun k => rfl)
          | Enum bs2 => exact gs_tot_defL K ga gb Γ _ _ IHK2 hmem hK (fun k => rfl)
          | Pair b1 b2 => exact gs_tot_defL K ga gb Γ _ _ IHK2 hmem hK (fun k => rfl)
          | Def nb => exact gs_tot_defL K ga gb Γ _ _ IHK2 hmem hK (fun k => rfl)

theorem gsF_total (ga gb : Graph) (a b : Node) (Γ : List (Node × Node)) :
    ∃ n, gsF n ga gb a b Γ ≠ none :=
  gsF_total_aux (gsMeasure ga gb a b Γ) ga gb Γ (sizeOf a + sizeOf b) a b
    (Nat.le_refl _) (Nat.le_refl _)

/-- C10: the coinductive graph subsumption of spec section 4.C terminates
on every input pair of graph constraints: for any two graph constraints,
some fuel makes `graph_super_of` return an answer rather than the
out-of-fuel marker.  The assumption set is what makes this true: every
`Def` expansion records a fresh pair from the finite universe of
reachable node pairs, and all other rules shrink the nodes. -/
theorem c10_graph_subsumption_terminates (A B : GraphConstraint) :
    ∃ n, graph_super_of n A B ≠ none :=
  gsF_total A.graph B.graph (.Def A.entry) (.Def B.entry) []
